import Mathlib

/-! bank_balance.cc: deepest-day deposit search

A shallow embedding of `src/bank_balance.cc` and the properties of its
Fibonacci table (`GetFibonacci`) and of the search performed by `main`.

Conventions of the embedding.

* `int64_t` values are integers in `[-2^63, 2^63)`. Every `int64_t` addition,
  subtraction, multiplication and increment of the source is followed by
  `wrap64`, reduction modulo `2^64` into that range (two's complement
  wrap-around, what the compiled program does on signed overflow).
* `std::vector<int64_t>` is `List Int`, `push_back` appends at the end,
  `pop_back` is `List.dropLast`.
* Every loop whose termination is not syntactically evident (the `while` of
  `GetFibonacci` and the inner `for` over `i`) carries a fuel argument that
  bounds the number of executions of the loop body; running out of fuel is the
  fault `outOfFuel`.
* Reading `back()` of an empty vector, indexing outside a vector, `%` or `/`
  by zero, and `INT64_MIN % -1` are faults.
* `%` and `/` on `int64_t` truncate toward zero: `Int.tmod` and `Int.tdiv`.

Three executions are defined: the program itself (`main`, wrap-around
arithmetic), the same program over unbounded integers (`mainZ`, the
mathematical reference), and a range-checked execution (`mainChecked`) in
which an arithmetic result outside a given range is a fault. -/

namespace BankBalance

/-- Ways in which an execution of the embedded program can fail to produce a
result. -/
inductive Fault where
  | outOfFuel
  | emptyBack
  | indexOutOfRange
  | divByZero
  | divOverflow
  deriving DecidableEq, Repr

deriving instance DecidableEq for Except

/-- What `main` prints on standard output (exit code 0 in both cases). -/
inductive Outcome where
  | solution (days first_deposit second_deposit : Int)
  | noSolution
  deriving DecidableEq, Repr

/-- Reduction of an integer into the range `[-2^63, 2^63)` of `int64_t`
modulo `2^64`. -/
def wrap64 (x : Int) : Int := (x + 2 ^ 63) % 2 ^ 64 - 2 ^ 63

/-- Element access `v[i]` of a vector; an index outside `[0, size)` is a
fault. -/
def vecAt (v : List Int) (i : Int) : Except Fault Int :=
  if 0 ≤ i ∧ i < (v.length : Int) then
    match v[i.toNat]? with
    | some x => .ok x
    | none => .error .indexOutOfRange
  else .error .indexOutOfRange

/-- Reading `v.back()`; the vector must not be empty. -/
def vecBack (v : List Int) : Except Fault Int :=
  match v.getLast? with
  | some x => .ok x
  | none => .error .emptyBack

/-- The loop `while (ret.back() <= max) ret.push_back(ret[size-1] + ret[size-2]);`
of `GetFibonacci`. The fuel bounds the number of `push_back`s: the loop
condition is evaluated in either case, and a further iteration without fuel is
the fault `outOfFuel`. -/
def fibWhile (max : Int) : Nat → List Int → Except Fault (List Int)
  | 0, ret =>
    match vecBack ret with
    | .error e => .error e
    | .ok back => if back ≤ max then .error .outOfFuel else .ok ret
  | fuel + 1, ret =>
    match vecBack ret with
    | .error e => .error e
    | .ok back =>
      if back ≤ max then
        match vecAt ret ((ret.length : Int) - 1), vecAt ret ((ret.length : Int) - 2) with
        | .ok x, .ok y => fibWhile max fuel (ret ++ [wrap64 (x + y)])
        | .error e, _ => .error e
        | _, .error e => .error e
      else .ok ret

/-- Embedding of `std::vector<int64_t> GetFibonacci(int64_t max)`. -/
def GetFibonacci (fuel : Nat) (max : Int) : Except Fault (List Int) :=
  if max = 0 then .ok [0]
  else
    match fibWhile max fuel [0, 1] with
    | .error e => .error e
    | .ok ret => .ok ret.dropLast

/-- The inner loop `for (i = 0; i*fib1 <= target_sum; ++i)` of `main`, started
at `i`. The result `some (i, j)` is the `return 0` inside the loop with the
printed deposits, `none` is normal loop exit. The fuel bounds the number of
executions of the body: the loop condition is evaluated in either case, and a
further iteration without fuel is the fault `outOfFuel`. -/
def innerLoop (target_sum fib1 fib2 : Int) : Nat → Int → Except Fault (Option (Int × Int))
  | 0, i => if wrap64 (i * fib1) ≤ target_sum then .error .outOfFuel else .ok none
  | fuel + 1, i =>
    if wrap64 (i * fib1) ≤ target_sum then
      let second_deposit_accumulated := wrap64 (target_sum - wrap64 (i * fib1))
      if fib2 = 0 then .error .divByZero
      else if fib2 = -1 ∧ second_deposit_accumulated = -2 ^ 63 then .error .divOverflow
      else if second_deposit_accumulated.tmod fib2 = 0 then
        .ok (some (i, second_deposit_accumulated.tdiv fib2))
      else innerLoop target_sum fib1 fib2 fuel (wrap64 (i + 1))
    else .ok none

/-- The outer loop `for (index = ...; index >= 0; --index)` of `main`. The
argument `n` is `index + 1`: the loop is at `index = n - 1` and stops when
`index` has become `-1`. -/
def outerLoop (fuel : Nat) (target_sum : Int) (fibs : List Int) : Nat → Except Fault Outcome
  | 0 => .ok .noSolution
  | index + 1 =>
    match vecAt fibs (index : Int), vecAt fibs ((index : Int) + 1) with
    | .ok fib1, .ok fib2 =>
      match innerLoop target_sum fib1 fib2 fuel 0 with
      | .error e => .error e
      | .ok (some (i, j)) => .ok (.solution (index : Int) i j)
      | .ok none => outerLoop fuel target_sum fibs index
    | .error e, _ => .error e
    | _, .error e => .error e

/-- The general search of `main` (source lines 84-102): the outer loop started
at `index = fibs.size() - 2`. -/
def generalSearch (fuel : Nat) (target_sum : Int) (fibs : List Int) : Except Fault Outcome :=
  outerLoop fuel target_sum fibs (((fibs.length : Int) - 2) + 1).toNat

/-- Embedding of `main` after argument parsing: `tableFuel` bounds the loop of
`GetFibonacci`, `searchFuel` bounds each run of the inner loop. -/
def main (tableFuel searchFuel : Nat) (target_sum : Int) : Except Fault Outcome :=
  match GetFibonacci tableFuel target_sum with
  | .error e => .error e
  | .ok fibs =>
    match vecBack fibs with
    | .error e => .error e
    | .ok back =>
      if back = target_sum then .ok (.solution (fibs.length : Int) 1 0)
      else generalSearch searchFuel target_sum fibs

/-! ## The same program over unbounded integers

The definitions above with every `wrap64` removed: the arithmetic of the
source carried out in the mathematical integers. This is the reference the
program is compared with; the two agree as long as no `int64_t` operation of
the run overflows. -/

/-- The loop of `GetFibonacci` over unbounded integers. -/
def fibWhileZ (max : Int) : Nat → List Int → Except Fault (List Int)
  | 0, ret =>
    match vecBack ret with
    | .error e => .error e
    | .ok back => if back ≤ max then .error .outOfFuel else .ok ret
  | fuel + 1, ret =>
    match vecBack ret with
    | .error e => .error e
    | .ok back =>
      if back ≤ max then
        match vecAt ret ((ret.length : Int) - 1), vecAt ret ((ret.length : Int) - 2) with
        | .ok x, .ok y => fibWhileZ max fuel (ret ++ [x + y])
        | .error e, _ => .error e
        | _, .error e => .error e
      else .ok ret

/-- `GetFibonacci` over unbounded integers. -/
def GetFibonacciZ (fuel : Nat) (max : Int) : Except Fault (List Int) :=
  if max = 0 then .ok [0]
  else
    match fibWhileZ max fuel [0, 1] with
    | .error e => .error e
    | .ok ret => .ok ret.dropLast

/-- The inner loop of `main` over unbounded integers. -/
def innerLoopZ (target_sum fib1 fib2 : Int) : Nat → Int → Except Fault (Option (Int × Int))
  | 0, i => if i * fib1 ≤ target_sum then .error .outOfFuel else .ok none
  | fuel + 1, i =>
    if i * fib1 ≤ target_sum then
      let second_deposit_accumulated := target_sum - i * fib1
      if fib2 = 0 then .error .divByZero
      else if second_deposit_accumulated.tmod fib2 = 0 then
        .ok (some (i, second_deposit_accumulated.tdiv fib2))
      else innerLoopZ target_sum fib1 fib2 fuel (i + 1)
    else .ok none

/-- The outer loop of `main` over the unbounded inner loop. -/
def outerLoopZ (fuel : Nat) (target_sum : Int) (fibs : List Int) : Nat → Except Fault Outcome
  | 0 => .ok .noSolution
  | index + 1 =>
    match vecAt fibs (index : Int), vecAt fibs ((index : Int) + 1) with
    | .ok fib1, .ok fib2 =>
      match innerLoopZ target_sum fib1 fib2 fuel 0 with
      | .error e => .error e
      | .ok (some (i, j)) => .ok (.solution (index : Int) i j)
      | .ok none => outerLoopZ fuel target_sum fibs index
    | .error e, _ => .error e
    | _, .error e => .error e

/-- The general search of `main` over unbounded integers. -/
def generalSearchZ (fuel : Nat) (target_sum : Int) (fibs : List Int) : Except Fault Outcome :=
  outerLoopZ fuel target_sum fibs (((fibs.length : Int) - 2) + 1).toNat

/-- The program `main` over unbounded integers. -/
def mainZ (tableFuel searchFuel : Nat) (target_sum : Int) : Except Fault Outcome :=
  match GetFibonacciZ tableFuel target_sum with
  | .error e => .error e
  | .ok fibs =>
    match vecBack fibs with
    | .error e => .error e
    | .ok back =>
      if back = target_sum then .ok (.solution (fibs.length : Int) 1 0)
      else generalSearchZ searchFuel target_sum fibs

/-- The Fibonacci numbers of the specification: `fib 0 = 0`, `fib 1 = 1`,
`fib (k+2) = fib (k+1) + fib k`. -/
def fib : Nat → Int
  | 0 => 0
  | 1 => 1
  | k + 2 => fib (k + 1) + fib k

/-- The list `[fib 0, fib 1, ..., fib n]`. -/
def fibTable (n : Nat) : List Int := (List.range (n + 1)).map fib

/-- The largest index `n` with `fib n ≤ max` (for `max ≥ 0`), searched below
`max + 2`. -/
def topIndex (max : Int) : Nat :=
  Nat.findGreatest (fun k => fib k ≤ max) (max.toNat + 1)

/-! ## Range-checked execution

The program over unbounded integers with every arithmetic result (the sums
pushed on the table, the products `i*fib1`, the remainders
`target_sum - i*fib1`, the quotients `j` and the increments of `i`) checked
against a range `[lo, hi]`: a result outside the range is a fault carrying the
offending value. With the range of `int64_t` a run without range fault is a
run of the source without signed overflow. -/

/-- Faults of the range-checked execution: a fault of the plain embedding, or
an arithmetic result outside the range. -/
inductive RangeFault where
  | plain (f : Fault)
  | outOfRange (value : Int)
  deriving DecidableEq, Repr

/-- An arithmetic result checked against the range `[lo, hi]`. -/
def inRange (lo hi x : Int) : Except RangeFault Int :=
  if lo ≤ x ∧ x ≤ hi then .ok x else .error (.outOfRange x)

/-- Result of the plain embedding seen as a result of the range-checked
one. -/
def liftFault {α : Type} : Except Fault α → Except RangeFault α
  | .ok a => .ok a
  | .error f => .error (.plain f)

/-- The loop of `GetFibonacciZ` with the pushed sum range-checked. -/
def fibWhileChecked (lo hi max : Int) : Nat → List Int → Except RangeFault (List Int)
  | 0, ret =>
    match vecBack ret with
    | .error e => .error (.plain e)
    | .ok back => if back ≤ max then .error (.plain .outOfFuel) else .ok ret
  | fuel + 1, ret =>
    match vecBack ret with
    | .error e => .error (.plain e)
    | .ok back =>
      if back ≤ max then
        match vecAt ret ((ret.length : Int) - 1), vecAt ret ((ret.length : Int) - 2) with
        | .ok x, .ok y =>
          match inRange lo hi (x + y) with
          | .error e => .error e
          | .ok z => fibWhileChecked lo hi max fuel (ret ++ [z])
        | .error e, _ => .error (.plain e)
        | _, .error e => .error (.plain e)
      else .ok ret

/-- Range-checked `GetFibonacciZ`. -/
def GetFibonacciChecked (lo hi : Int) (fuel : Nat) (max : Int) : Except RangeFault (List Int) :=
  if max = 0 then .ok [0]
  else
    match fibWhileChecked lo hi max fuel [0, 1] with
    | .error e => .error e
    | .ok ret => .ok ret.dropLast

/-- The inner loop of `mainZ` with the product of the loop condition, the
remainder, the quotient and the increment of `i` range-checked. -/
def innerLoopChecked (lo hi target_sum fib1 fib2 : Int) :
    Nat → Int → Except RangeFault (Option (Int × Int))
  | 0, i =>
    match inRange lo hi (i * fib1) with
    | .error e => .error e
    | .ok p => if p ≤ target_sum then .error (.plain .outOfFuel) else .ok none
  | fuel + 1, i =>
    match inRange lo hi (i * fib1) with
    | .error e => .error e
    | .ok p =>
      if p ≤ target_sum then
        match inRange lo hi (target_sum - i * fib1) with
        | .error e => .error e
        | .ok second_deposit_accumulated =>
          if fib2 = 0 then .error (.plain .divByZero)
          else if second_deposit_accumulated.tmod fib2 = 0 then
            match inRange lo hi (second_deposit_accumulated.tdiv fib2) with
            | .error e => .error e
            | .ok j => .ok (some (i, j))
          else
            match inRange lo hi (i + 1) with
            | .error e => .error e
            | .ok i1 => innerLoopChecked lo hi target_sum fib1 fib2 fuel i1
      else .ok none

/-- The outer loop of `mainZ` over the range-checked inner loop. -/
def outerLoopChecked (lo hi : Int) (fuel : Nat) (target_sum : Int) (fibs : List Int) :
    Nat → Except RangeFault Outcome
  | 0 => .ok .noSolution
  | index + 1 =>
    match vecAt fibs (index : Int), vecAt fibs ((index : Int) + 1) with
    | .ok fib1, .ok fib2 =>
      match innerLoopChecked lo hi target_sum fib1 fib2 fuel 0 with
      | .error e => .error e
      | .ok (some (i, j)) => .ok (.solution (index : Int) i j)
      | .ok none => outerLoopChecked lo hi fuel target_sum fibs index
    | .error e, _ => .error (.plain e)
    | _, .error e => .error (.plain e)

/-- Range-checked `mainZ`: the target itself must lie in the range. -/
def mainChecked (lo hi : Int) (tableFuel searchFuel : Nat) (target_sum : Int) :
    Except RangeFault Outcome :=
  match inRange lo hi target_sum with
  | .error e => .error e
  | .ok _ =>
    match GetFibonacciChecked lo hi tableFuel target_sum with
    | .error e => .error e
    | .ok fibs =>
      match vecBack fibs with
      | .error e => .error (.plain e)
      | .ok back =>
        if back = target_sum then .ok (.solution (fibs.length : Int) 1 0)
        else outerLoopChecked lo hi searchFuel target_sum fibs
          (((fibs.length : Int) - 2) + 1).toNat

/-- The table the program builds on `target_sum = fib 92 = 7540113804746346429`:
`fib 0, ..., fib 92` followed by 25 wrapped values (118 entries). -/
def tableAtFib92 : List Int :=
  [0, 1, 1, 2, 3, 5, 8, 13, 21, 34, 55, 89, 144, 233, 377, 610, 987, 1597, 2584, 4181, 6765,
   10946, 17711, 28657, 46368, 75025, 121393, 196418, 317811, 514229, 832040, 1346269, 2178309,
   3524578, 5702887, 9227465, 14930352, 24157817, 39088169, 63245986, 102334155, 165580141,
   267914296, 433494437, 701408733, 1134903170, 1836311903, 2971215073, 4807526976, 7778742049,
   12586269025, 20365011074, 32951280099, 53316291173, 86267571272, 139583862445, 225851433717,
   365435296162, 591286729879, 956722026041, 1548008755920, 2504730781961, 4052739537881,
   6557470319842, 10610209857723, 17167680177565, 27777890035288, 44945570212853, 72723460248141,
   117669030460994, 190392490709135, 308061521170129, 498454011879264, 806515533049393,
   1304969544928657, 2111485077978050, 3416454622906707, 5527939700884757, 8944394323791464,
   14472334024676221, 23416728348467685, 37889062373143906, 61305790721611591, 99194853094755497,
   160500643816367088, 259695496911122585, 420196140727489673, 679891637638612258,
   1100087778366101931, 1779979416004714189, 2880067194370816120, 4660046610375530309,
   7540113804746346429, -6246583658587674878, 1293530146158671551, -4953053512429003327,
   -3659523366270331776, -8612576878699335103, 6174643828739884737, -2437933049959450366,
   3736710778780434371, 1298777728820984005, 5035488507601418376, 6334266236422402381,
   -7076989329685730859, -742723093263328478, -7819712422949059337, -8562435516212387815,
   2064596134548104464, -6497839381664283351, -4433243247116178887, 7515661444929089378,
   3082418197812910491, -7848664430967551747, -4766246233154641256, 5831833409587358613,
   1065587176432717357, 6897420586020075970]

/-! ## The Fibonacci numbers -/

theorem fib_eq_natFib (n : Nat) : fib n = (Nat.fib n : Int) := by
  induction n using Nat.strong_induction_on with
  | _ n ih =>
    match n with
    | 0 => rfl
    | 1 => rfl
    | k + 2 =>
      rw [fib, ih (k + 1) (by omega), ih k (by omega), Nat.fib_add_two]
      push_cast
      ring

theorem fib_add_two (n : Nat) : fib (n + 2) = fib (n + 1) + fib n := by
  rw [fib]

theorem fib_nonneg (n : Nat) : 0 ≤ fib n := by
  rw [fib_eq_natFib]
  exact Int.natCast_nonneg _

theorem fib_pos {n : Nat} (h : 1 ≤ n) : 1 ≤ fib n := by
  rw [fib_eq_natFib]
  have := Nat.fib_pos.mpr (show 0 < n by omega)
  omega

theorem fib_mono {m n : Nat} (h : m ≤ n) : fib m ≤ fib n := by
  rw [fib_eq_natFib, fib_eq_natFib]
  exact_mod_cast Nat.fib_mono h

theorem le_fib_add_one (n : Nat) : (n : Int) ≤ fib n + 1 := by
  rw [fib_eq_natFib]
  exact_mod_cast Nat.le_fib_add_one n

/-! ## The index of the largest Fibonacci number below a bound -/

theorem fib_topIndex_le {max : Int} (h : 0 ≤ max) : fib (topIndex max) ≤ max := by
  unfold topIndex
  exact Nat.findGreatest_spec (P := fun k => fib k ≤ max) (Nat.zero_le _) (by simpa [fib] using h)

theorem topIndex_le (max : Int) : topIndex max ≤ max.toNat + 1 :=
  Nat.findGreatest_le _

theorem lt_fib_topIndex_succ {max : Int} (h : 0 ≤ max) : max < fib (topIndex max + 1) := by
  by_contra hcon
  push_neg at hcon
  have hle : topIndex max + 1 ≤ max.toNat + 1 := by
    by_contra hgt
    have heq : topIndex max = max.toNat + 1 := by
      have := topIndex_le max
      omega
    have h1 := le_fib_add_one (topIndex max + 1)
    rw [heq] at h1 hcon
    push_cast at h1
    have h2 : ((max.toNat : Nat) : Int) = max := Int.toNat_of_nonneg h
    omega
  have := Nat.le_findGreatest (P := fun k => fib k ≤ max) hle hcon
  unfold topIndex at *
  omega

theorem le_topIndex {max : Int} (h : 0 ≤ max) {m : Nat} (hm : fib m ≤ max) :
    m ≤ topIndex max := by
  by_contra hlt
  push_neg at hlt
  have h1 : fib (topIndex max + 1) ≤ fib m := fib_mono (by omega)
  have h2 := lt_fib_topIndex_succ h
  omega

theorem two_le_topIndex {max : Int} (h : 1 ≤ max) : 2 ≤ topIndex max :=
  le_topIndex (by omega) (by simpa [fib] using h)

/-! ## The table `[fib 0, ..., fib n]` -/

theorem fibTable_length (n : Nat) : (fibTable n).length = n + 1 := by
  simp [fibTable]

theorem fibTable_succ (n : Nat) : fibTable (n + 1) = fibTable n ++ [fib (n + 1)] := by
  simp [fibTable, List.range_succ]

theorem fibTable_ne_nil (n : Nat) : fibTable n ≠ [] := by
  intro h
  have := fibTable_length n
  rw [h] at this
  simp at this

theorem fibTable_getElem? {n k : Nat} (h : k ≤ n) : (fibTable n)[k]? = some (fib k) := by
  have hk : k < n + 1 := by omega
  simp [fibTable, List.getElem?_map, List.getElem?_range hk]

theorem fibTable_getLast? (n : Nat) : (fibTable n).getLast? = some (fib n) := by
  cases n with
  | zero => rfl
  | succ m => rw [fibTable_succ, List.getLast?_append]; rfl

theorem fibTable_dropLast (n : Nat) : (fibTable (n + 1)).dropLast = fibTable n := by
  rw [fibTable_succ, List.dropLast_concat]

theorem vecBack_fibTable (n : Nat) : vecBack (fibTable n) = .ok (fib n) := by
  simp [vecBack, fibTable_getLast?]

theorem vecAt_fibTable {n k : Nat} (h : k ≤ n) : vecAt (fibTable n) (k : Int) = .ok (fib k) := by
  have h1 : (0 : Int) ≤ (k : Int) ∧ (k : Int) < ((fibTable n).length : Int) := by
    rw [fibTable_length]
    constructor <;> omega
  simp only [vecAt, h1, and_self, if_true, Int.toNat_ofNat, fibTable_getElem? h]

/-! ## The loop of `GetFibonacciZ` -/

theorem fibWhileZ_exit (max : Int) (fuel k : Nat) (h : max < fib k) :
    fibWhileZ max fuel (fibTable k) = .ok (fibTable k) := by
  cases fuel <;> simp only [fibWhileZ, vecBack_fibTable] <;> rw [if_neg (by omega)]

theorem fibWhileZ_step (max : Int) (fuel k : Nat) (hk : 1 ≤ k) (h : fib k ≤ max) :
    fibWhileZ max (fuel + 1) (fibTable k) = fibWhileZ max fuel (fibTable (k + 1)) := by
  obtain ⟨m, rfl⟩ : ∃ m, k = m + 1 := ⟨k - 1, by omega⟩
  have e1 : ((fibTable (m + 1)).length : Int) - 1 = ((m + 1 : Nat) : Int) := by
    rw [fibTable_length]; push_cast; ring
  have e2 : ((fibTable (m + 1)).length : Int) - 2 = ((m : Nat) : Int) := by
    rw [fibTable_length]; push_cast; ring
  simp only [fibWhileZ, vecBack_fibTable, if_pos h, e1, e2, vecAt_fibTable (Nat.le_refl (m + 1)),
    vecAt_fibTable (Nat.le_succ m)]
  rw [fibTable_succ (m + 1), fib_add_two]

theorem fibWhileZ_out_of_fuel (max : Int) (k : Nat) (h : fib k ≤ max) :
    fibWhileZ max 0 (fibTable k) = .error .outOfFuel := by
  simp only [fibWhileZ, vecBack_fibTable, if_pos h]

/-- Exact behaviour of the loop started on `[fib 0, ..., fib k]` when `fib n` is
the last Fibonacci number not above `max`: it needs `n + 1 - k` pushes. -/
theorem fibWhileZ_fibTable (max : Int) (n : Nat) (hn : fib n ≤ max) (hn1 : max < fib (n + 1)) :
    ∀ (fuel k : Nat), 1 ≤ k → k ≤ n + 1 →
      fibWhileZ max fuel (fibTable k) =
        if n + 1 ≤ fuel + k then .ok (fibTable (n + 1)) else .error .outOfFuel := by
  intro fuel
  induction fuel with
  | zero =>
    intro k hk hkn
    by_cases hlast : k = n + 1
    · subst hlast
      rw [fibWhileZ_exit max 0 (n + 1) hn1, if_pos (by omega)]
    · have : fib k ≤ max := le_trans (fib_mono (by omega)) hn
      rw [fibWhileZ_out_of_fuel max k this, if_neg (by omega)]
  | succ fuel ih =>
    intro k hk hkn
    by_cases hlast : k = n + 1
    · subst hlast
      rw [fibWhileZ_exit max _ (n + 1) hn1, if_pos (by omega)]
    · have : fib k ≤ max := le_trans (fib_mono (by omega)) hn
      rw [fibWhileZ_step max fuel k hk this, ih (k + 1) (by omega) (by omega)]
      by_cases hf : n + 1 ≤ fuel + (k + 1)
      · rw [if_pos hf, if_pos (by omega)]
      · rw [if_neg hf, if_neg (by omega)]

/-- Exact behaviour of `GetFibonacciZ` on a non-negative bound: with at least
`topIndex max` units of fuel the table is `[fib 0, ..., fib (topIndex max)]`,
with less the loop is cut short. -/
theorem GetFibonacciZ_eq {max : Int} (h : 0 ≤ max) (fuel : Nat) :
    GetFibonacciZ fuel max =
      if max = 0 ∨ topIndex max ≤ fuel then .ok (fibTable (topIndex max))
      else .error .outOfFuel := by
  by_cases h0 : max = 0
  · subst h0
    have : topIndex 0 = 0 := by decide
    simp only [GetFibonacciZ, this, if_true, true_or]
    rfl
  · have h1 : 1 ≤ max := by omega
    have h2 := two_le_topIndex h1
    have hw := fibWhileZ_fibTable max (topIndex max) (fib_topIndex_le h)
      (lt_fib_topIndex_succ h) fuel 1 (le_refl 1) (by omega)
    have ht : fibTable 1 = [0, 1] := by decide
    rw [ht] at hw
    unfold GetFibonacciZ
    rw [if_neg h0, hw]
    by_cases hf : topIndex max ≤ fuel
    · rw [if_pos (by omega), if_pos (Or.inr hf)]
      simp only [fibTable_dropLast]
    · rw [if_neg (by omega), if_neg (by tauto)]

theorem GetFibonacciZ_ok {max : Int} (h : 0 ≤ max) {fuel : Nat} (hf : max.toNat + 1 ≤ fuel) :
    GetFibonacciZ fuel max = .ok (fibTable (topIndex max)) := by
  rw [GetFibonacciZ_eq h, if_pos (Or.inr (le_trans (topIndex_le max) hf))]

/-! ## The inner loop over the first deposit -/

theorem vecAt_fibTable_succ {n k : Nat} (h : k + 1 ≤ n) :
    vecAt (fibTable n) ((k : Int) + 1) = .ok (fib (k + 1)) := by
  have := vecAt_fibTable h
  push_cast at this
  exact this

/-- A hit of the inner loop: the reported first deposit passes the
divisibility test and no smaller candidate from the start value on does. -/
theorem innerLoopZ_some {S f1 f2 : Int} : ∀ (fuel : Nat) (i a b : Int),
    innerLoopZ S f1 f2 fuel i = .ok (some (a, b)) →
      i ≤ a ∧ a * f1 ≤ S ∧ f2 ≠ 0 ∧ (S - a * f1).tmod f2 = 0 ∧ b = (S - a * f1).tdiv f2 ∧
        ∀ i', i ≤ i' → i' < a → (S - i' * f1).tmod f2 ≠ 0 := by
  intro fuel
  induction fuel with
  | zero =>
    intro i a b h
    simp only [innerLoopZ] at h
    split at h <;> simp at h
  | succ fuel ih =>
    intro i a b h
    simp only [innerLoopZ] at h
    split at h
    · rename_i hc
      split at h
      · simp at h
      · rename_i hf2
        split at h
        · rename_i hm
          simp only [Except.ok.injEq, Option.some.injEq, Prod.mk.injEq] at h
          obtain ⟨rfl, rfl⟩ := h
          exact ⟨le_refl _, hc, hf2, hm, rfl, fun i' h1 h2 => by omega⟩
        · rename_i hm
          obtain ⟨h1, h2, h3, h4, h5, h6⟩ := ih (i + 1) a b h
          refine ⟨by omega, h2, h3, h4, h5, fun i' hi1 hi2 => ?_⟩
          by_cases hi : i' = i
          · subst hi; exact hm
          · exact h6 i' (by omega) hi2
    · simp at h

/-- Normal exit of the inner loop: every candidate from the start value on
that satisfies the loop condition fails the divisibility test. -/
theorem innerLoopZ_none {S f1 f2 : Int} (hf1 : 0 ≤ f1) : ∀ (fuel : Nat) (i : Int),
    innerLoopZ S f1 f2 fuel i = .ok none →
      ∀ i', i ≤ i' → i' * f1 ≤ S → (S - i' * f1).tmod f2 ≠ 0 := by
  intro fuel
  induction fuel with
  | zero =>
    intro i h i' hi hle
    simp only [innerLoopZ] at h
    split at h
    · simp at h
    · rename_i hc
      have : i * f1 ≤ i' * f1 := Int.mul_le_mul_of_nonneg_right hi hf1
      omega
  | succ fuel ih =>
    intro i h i' hi hle
    simp only [innerLoopZ] at h
    split at h
    · split at h
      · simp at h
      · split at h
        · simp at h
        · rename_i hm
          by_cases hii : i' = i
          · subst hii; exact hm
          · exact ih (i + 1) h i' (by omega) hle
    · rename_i hc
      have : i * f1 ≤ i' * f1 := Int.mul_le_mul_of_nonneg_right hi hf1
      omega

/-- With a non-zero divisor the inner loop has no fault other than running
out of fuel. -/
theorem innerLoopZ_no_fault (S f1 : Int) {f2 : Int} (hf2 : f2 ≠ 0) : ∀ (fuel : Nat) (i : Int),
    (∃ r, innerLoopZ S f1 f2 fuel i = .ok r) ∨ innerLoopZ S f1 f2 fuel i = .error .outOfFuel := by
  intro fuel
  induction fuel with
  | zero =>
    intro i
    simp only [innerLoopZ]
    split
    · exact Or.inr rfl
    · exact Or.inl ⟨_, rfl⟩
  | succ fuel ih =>
    intro i
    simp only [innerLoopZ, if_neg hf2]
    split
    · split
      · exact Or.inl ⟨_, rfl⟩
      · exact ih (i + 1)
    · exact Or.inl ⟨_, rfl⟩

/-- Bound on the iterations of the inner loop for a positive `fib1`: started at
`i ≥ 0` it finishes within `⌊S / fib1⌋ + 1 - i` executions of its body. -/
theorem innerLoopZ_terminates {S f1 f2 : Int} (hf1 : 1 ≤ f1) (hf2 : f2 ≠ 0) :
    ∀ (fuel : Nat) (i : Int), S / f1 + 1 ≤ (fuel : Int) + i →
      ∃ r, innerLoopZ S f1 f2 fuel i = .ok r := by
  intro fuel
  induction fuel with
  | zero =>
    intro i h
    have h1 : S < (S / f1 + 1) * f1 := Int.lt_ediv_add_one_mul_self S (by omega)
    have h2 : (S / f1 + 1) * f1 ≤ i * f1 :=
      Int.mul_le_mul_of_nonneg_right (by simpa using h) (by omega)
    simp only [innerLoopZ]
    rw [if_neg (by omega)]
    exact ⟨_, rfl⟩
  | succ fuel ih =>
    intro i h
    simp only [innerLoopZ, if_neg hf2]
    split
    · split
      · exact ⟨_, rfl⟩
      · exact ih (i + 1) (by push_cast at h; omega)
    · exact ⟨_, rfl⟩

/-- At index 0 (`fib1 = 0`, `fib2 = 1`) the first test of the inner loop
succeeds with `i = 0`, `j = target_sum`. -/
theorem innerLoopZ_index_zero {S : Int} (hS : 0 ≤ S) (fuel : Nat) :
    innerLoopZ S 0 1 (fuel + 1) 0 = .ok (some (0, S)) := by
  simp [innerLoopZ, hS]

/-! ## The outer loop over the day index -/

theorem outerLoopZ_succ_fibTable (fuel : Nat) (S : Int) {m n : Nat} (h : n + 1 ≤ m) :
    outerLoopZ fuel S (fibTable m) (n + 1) =
      match innerLoopZ S (fib n) (fib (n + 1)) fuel 0 with
      | .error e => .error e
      | .ok (some (i, j)) => .ok (.solution (n : Int) i j)
      | .ok none => outerLoopZ fuel S (fibTable m) n := by
  simp only [outerLoopZ, vecAt_fibTable (show n ≤ m by omega), vecAt_fibTable_succ h]

/-- No pair of non-negative deposits reaches `S` with coefficients `f1 ≥ 0`,
`f2 ≥ 0` when every `i` with `i * f1 ≤ S` fails the divisibility test. -/
theorem no_solution_of_scan {S f1 f2 : Int} (hf2 : 0 ≤ f2)
    (h : ∀ i', 0 ≤ i' → i' * f1 ≤ S → (S - i' * f1).tmod f2 ≠ 0)
    (i' j' : Int) (hi : 0 ≤ i') (hj : 0 ≤ j') : i' * f1 + j' * f2 ≠ S := by
  intro heq
  have hle : i' * f1 ≤ S := by
    have : 0 ≤ j' * f2 := Int.mul_nonneg hj hf2
    omega
  apply h i' hi hle
  apply Int.tmod_eq_zero_of_dvd
  exact ⟨j', by rw [← heq]; ring⟩

/-- What the descending search started at `index = n - 1` reports, for a table
`[fib 0, ..., fib m]` with `n ≤ m` and enough fuel for every inner loop: a hit
at some index `d < n` with non-negative deposits solving
`i * fib d + j * fib (d+1) = S`, where `i` is the least first deposit admitting
an integer second deposit at `d`, and no index strictly between `d` and `n`
admits non-negative deposits. -/
theorem outerLoopZ_spec {S : Int} (hS : 0 ≤ S) {m fuel : Nat} (hfuel : S.toNat + 1 ≤ fuel) :
    ∀ n, 1 ≤ n → n ≤ m →
      ∃ (d : Nat) (i j : Int), outerLoopZ fuel S (fibTable m) n = .ok (.solution (d : Int) i j) ∧
        d < n ∧ 0 ≤ i ∧ 0 ≤ j ∧ i * fib d + j * fib (d + 1) = S ∧
        (∀ i' j', 0 ≤ i' → i' < i → i' * fib d + j' * fib (d + 1) ≠ S) ∧
        (∀ d', d < d' → d' < n → ∀ i' j', 0 ≤ i' → 0 ≤ j' →
          i' * fib d' + j' * fib (d' + 1) ≠ S) := by
  intro n
  induction n with
  | zero => intro h; omega
  | succ n ih =>
    intro _ hnm
    rw [outerLoopZ_succ_fibTable fuel S hnm]
    by_cases hn : n = 0
    · subst hn
      obtain ⟨f, rfl⟩ : ∃ f, fuel = f + 1 := ⟨fuel - 1, by omega⟩
      have h0 : fib 0 = 0 := rfl
      have h1 : fib (0 + 1) = 1 := rfl
      rw [h0, h1, innerLoopZ_index_zero hS]
      refine ⟨0, 0, S, rfl, by omega, le_refl _, hS, by rw [h0, h1]; ring, ?_, ?_⟩
      · intro i' j' h1 h2; omega
      · intro d' h1 h2; omega
    · have hf1 : 1 ≤ fib n := fib_pos (by omega)
      have hf2 : 1 ≤ fib (n + 1) := fib_pos (by omega)
      have hbound : S / fib n + 1 ≤ (fuel : Int) + 0 := by
        have h1 : S / fib n ≤ S := Int.ediv_le_self _ hS
        have h2 : ((S.toNat : Nat) : Int) = S := Int.toNat_of_nonneg hS
        omega
      obtain ⟨r, hr⟩ := innerLoopZ_terminates (S := S) hf1 (show fib (n + 1) ≠ 0 by omega) fuel 0 hbound
      rw [hr]
      match r, hr with
      | some (a, b), hr =>
        obtain ⟨ha, hle, _, hmod, hb, hmin⟩ := innerLoopZ_some fuel 0 a b hr
        have hrem : 0 ≤ S - a * fib n := by omega
        refine ⟨n, a, b, rfl, by omega, ha, ?_, ?_, ?_, ?_⟩
        · rw [hb]; exact Int.tdiv_nonneg hrem (by omega)
        · have := Int.tdiv_mul_cancel_of_tmod_eq_zero hmod
          rw [hb]; omega
        · intro i' j' h1 h2 heq
          apply hmin i' h1 h2
          apply Int.tmod_eq_zero_of_dvd
          exact ⟨j', by rw [← heq]; ring⟩
        · intro d' h1 h2; omega
      | none, hr =>
        obtain ⟨d, i, j, h1, h2, h3, h4, h5, h6, h7⟩ := ih (by omega) (by omega)
        refine ⟨d, i, j, h1, by omega, h3, h4, h5, h6, ?_⟩
        intro d' hd1 hd2 i' j' hi hj
        by_cases hdn : d' = n
        · subst hdn
          exact no_solution_of_scan (by omega)
            (fun x hx hxle => innerLoopZ_none (by omega) fuel 0 hr x hx hxle) i' j' hi hj
        · exact h7 d' hd1 (by omega) i' j' hi hj

theorem generalSearchZ_fibTable (fuel : Nat) (S : Int) (m : Nat) :
    generalSearchZ fuel S (fibTable m) = outerLoopZ fuel S (fibTable m) m := by
  have : (((fibTable m).length : Int) - 2 + 1).toNat = m := by
    rw [fibTable_length]; push_cast; omega
  rw [generalSearchZ, this]

/-- A non-negative target that misses the top of its table is at least 1. -/
theorem one_le_of_not_top {S : Int} (hS : 0 ≤ S) (h : fib (topIndex S) ≠ S) : 1 ≤ S := by
  by_contra hlt
  have h0 : S = 0 := by omega
  subst h0
  exact h (by decide)

/-- A non-negative target is a Fibonacci number exactly when it is the top of
its table. -/
theorem isFib_iff_top {S : Int} (hS : 0 ≤ S) : (∃ k, S = fib k) ↔ fib (topIndex S) = S := by
  constructor
  · rintro ⟨k, rfl⟩
    have h1 : k ≤ topIndex (fib k) := le_topIndex hS (le_refl _)
    have h2 := fib_topIndex_le hS
    have h3 := fib_mono h1
    omega
  · intro h
    exact ⟨_, h.symm⟩

/-! ## Facts shared by the properties of `mainZ` -/

/-- Whatever the fuel, a table returned for a non-negative bound is
`[fib 0, ..., fib (topIndex max)]`. -/
theorem GetFibonacciZ_inv {max : Int} (h : 0 ≤ max) {fuel : Nat} {F : List Int}
    (hF : GetFibonacciZ fuel max = .ok F) : F = fibTable (topIndex max) := by
  rw [GetFibonacciZ_eq h] at hF
  split at hF
  · exact (Except.ok.inj hF).symm
  · simp at hF

theorem mainZ_of_table {tf sf : Nat} {S : Int} {F : List Int} (hF : GetFibonacciZ tf S = .ok F) :
    mainZ tf sf S =
      match vecBack F with
      | .error e => .error e
      | .ok back =>
        if back = S then .ok (.solution (F.length : Int) 1 0) else generalSearchZ sf S F := by
  simp only [mainZ, hF]

/-- The branch of `mainZ` that runs the general search. -/
theorem mainZ_general {tf : Nat} (sf : Nat) {S : Int} (hS : 0 ≤ S) {F : List Int}
    (hF : GetFibonacciZ tf S = .ok F) (hgen : vecBack F ≠ .ok S) :
    F = fibTable (topIndex S) ∧ fib (topIndex S) ≠ S ∧ 1 ≤ S ∧ 2 ≤ topIndex S ∧
      mainZ tf sf S = outerLoopZ sf S (fibTable (topIndex S)) (topIndex S) := by
  have hFe := GetFibonacciZ_inv hS hF
  subst hFe
  have hne : fib (topIndex S) ≠ S := by
    intro h
    apply hgen
    rw [vecBack_fibTable, h]
  have h1 := one_le_of_not_top hS hne
  refine ⟨rfl, hne, h1, two_le_topIndex h1, ?_⟩
  rw [mainZ_of_table hF]
  simp only [vecBack_fibTable, if_neg hne, generalSearchZ_fibTable]

/-- The branch of `mainZ` that reports the exact-Fibonacci special case. -/
theorem mainZ_special {tf sf : Nat} {S : Int} {F : List Int}
    (hF : GetFibonacciZ tf S = .ok F) (hlast : vecBack F = .ok S) :
    mainZ tf sf S = .ok (.solution (F.length : Int) 1 0) := by
  rw [mainZ_of_table hF]
  simp only [hlast, if_true]

/-- On a table `[fib 0, ..., fib m]` the outer loop has no fault other than
running out of fuel. -/
theorem outerLoopZ_no_fault (fuel : Nat) (S : Int) {m : Nat} : ∀ n, n ≤ m →
    (∃ r, outerLoopZ fuel S (fibTable m) n = .ok r) ∨
      outerLoopZ fuel S (fibTable m) n = .error .outOfFuel := by
  intro n
  induction n with
  | zero => intro _; exact Or.inl ⟨_, rfl⟩
  | succ n ih =>
    intro hnm
    rw [outerLoopZ_succ_fibTable fuel S hnm]
    have hf2 : fib (n + 1) ≠ 0 := by
      have := fib_pos (show 1 ≤ n + 1 by omega)
      omega
    rcases innerLoopZ_no_fault S (fib n) hf2 fuel 0 with ⟨r, hr⟩ | hr
    · rw [hr]
      match r with
      | some (a, b) => exact Or.inl ⟨_, rfl⟩
      | none => exact ih (by omega)
    · rw [hr]
      exact Or.inr rfl

/-- Without search fuel the general search stops at its first iteration. -/
theorem outerLoopZ_zero_fuel {S : Int} (hS : 0 ≤ S) {m n : Nat} (h : n + 1 ≤ m) :
    outerLoopZ 0 S (fibTable m) (n + 1) = .error .outOfFuel := by
  rw [outerLoopZ_succ_fibTable 0 S h]
  simp [innerLoopZ, hS]

/-! ## Properties of the program over unbounded integers -/

/-- Over unbounded integers: when the general search runs on a target `S ≥ 0` (the table `F` does
not end in `S`) it reports a triple `(days, i, j)`, and at every index above
`days` and up to `|F| - 2` the entries `F[index']`, `F[index' + 1]` admit no
pair of non-negative deposits `i'`, `j'` with
`i' * F[index'] + j' * F[index' + 1] = S`. -/
theorem unbounded_general_search_maximal (S : Int) (hS : 0 ≤ S) (tf sf : Nat) (F : List Int)
    (hF : GetFibonacciZ tf S = .ok F) (hgen : vecBack F ≠ .ok S) (hsf : S.toNat + 1 ≤ sf) :
    ∃ days i j : Int, mainZ tf sf S = .ok (.solution days i j) ∧
      ∀ index' : Int, days < index' → index' ≤ (F.length : Int) - 2 →
        ∃ x y, vecAt F index' = .ok x ∧ vecAt F (index' + 1) = .ok y ∧
          ∀ i' j' : Int, 0 ≤ i' → 0 ≤ j' → i' * x + j' * y ≠ S := by
  obtain ⟨hFe, _, _, h2, hmain⟩ := mainZ_general (sf) hS hF hgen
  obtain ⟨d, i, j, hout, hd, _, _, _, _, hmax⟩ :=
    outerLoopZ_spec hS hsf (m := topIndex S) (topIndex S) (by omega) (le_refl _)
  refine ⟨d, i, j, by rw [hmain, hout], ?_⟩
  intro index' hlt hle
  subst hFe
  rw [fibTable_length] at hle
  push_cast at hle
  have h0 : 0 ≤ index' := by omega
  obtain ⟨k, rfl⟩ := Int.eq_ofNat_of_zero_le h0
  refine ⟨fib k, fib (k + 1), vecAt_fibTable (by omega), vecAt_fibTable_succ (by omega), ?_⟩
  intro i' j' hi hj
  exact hmax k (by omega) (by omega) i' j' hi hj

/-- Over unbounded integers: for a target `S ≥ 0`, `S` is a Fibonacci number exactly when it is the
last element of its table `F`; in that case the program reports `days = |F|`,
first deposit 1, second deposit 0 whatever the search fuel, even none, so no
iteration of the general search is executed; when `S` is not the last element
the program without search fuel stops in the general search. -/
theorem unbounded_exact_fibonacci_special_case (S : Int) (hS : 0 ≤ S) (tf : Nat)
    (htf : S.toNat + 1 ≤ tf) :
    ∃ F, GetFibonacciZ tf S = .ok F ∧
      ((∃ k, S = fib k) ↔ vecBack F = .ok S) ∧
      (vecBack F = .ok S → ∀ sf, mainZ tf sf S = .ok (.solution (F.length : Int) 1 0)) ∧
      (vecBack F ≠ .ok S → mainZ tf 0 S = .error .outOfFuel) := by
  have hF := GetFibonacciZ_ok hS htf
  refine ⟨_, hF, ?_, ?_, ?_⟩
  · rw [isFib_iff_top hS, vecBack_fibTable]
    constructor
    · intro h; rw [h]
    · intro h; exact Except.ok.inj h
  · intro hlast sf
    exact mainZ_special hF hlast
  · intro hgen
    obtain ⟨_, _, _, h2, hmain⟩ := mainZ_general (0) hS hF hgen
    rw [hmain]
    obtain ⟨n, hn⟩ : ∃ n, topIndex S = n + 1 := ⟨topIndex S - 1, by omega⟩
    conv_lhs => arg 4; rw [hn]
    exact outerLoopZ_zero_fuel hS (by omega)

/-- Over unbounded integers: for every target `S ≥ 0` and enough fuel the program reports a
solution and not "No solution found"; and whenever the general search runs,
index 0 is in its range, the table has `F[0] = 0` and `F[1] = 1`, the first
test of the inner loop there succeeds with `i = 0`, `j = S`, and the search
started at index 0 reports `(0, 0, S)`. -/
theorem unbounded_solution_always_reported (S : Int) (hS : 0 ≤ S) (tf sf : Nat)
    (htf : S.toNat + 1 ≤ tf) (hsf : S.toNat + 1 ≤ sf) :
    (∃ days i j : Int, mainZ tf sf S = .ok (.solution days i j)) ∧
      mainZ tf sf S ≠ .ok .noSolution ∧
      ∃ F, GetFibonacciZ tf S = .ok F ∧
        (vecBack F ≠ .ok S →
          0 ≤ (F.length : Int) - 2 ∧ vecAt F 0 = .ok 0 ∧ vecAt F (0 + 1) = .ok 1 ∧
            innerLoopZ S 0 1 sf 0 = .ok (some (0, S)) ∧
            outerLoopZ sf S F 1 = .ok (.solution 0 0 S)) := by
  have hF := GetFibonacciZ_ok hS htf
  obtain ⟨f, rfl⟩ : ∃ f, sf = f + 1 := ⟨sf - 1, by omega⟩
  have hsol : ∃ days i j : Int, mainZ tf (f + 1) S = .ok (.solution days i j) := by
    by_cases hlast : vecBack (fibTable (topIndex S)) = .ok S
    · exact ⟨_, 1, 0, mainZ_special hF hlast⟩
    · obtain ⟨_, _, _, h2, hmain⟩ := mainZ_general (f + 1) hS hF hlast
      obtain ⟨d, i, j, hout, _⟩ :=
        outerLoopZ_spec hS hsf (m := topIndex S) (topIndex S) (by omega) (le_refl _)
      exact ⟨d, i, j, by rw [hmain, hout]⟩
  refine ⟨hsol, ?_, _, hF, ?_⟩
  · obtain ⟨d, i, j, h⟩ := hsol
    rw [h]
    simp
  · intro hgen
    obtain ⟨_, _, _, h2, _⟩ := mainZ_general (f + 1) hS hF hgen
    have hv0 : vecAt (fibTable (topIndex S)) 0 = .ok 0 :=
      vecAt_fibTable (k := 0) (Nat.zero_le _)
    have hv1 : vecAt (fibTable (topIndex S)) (0 + 1) = .ok 1 :=
      vecAt_fibTable_succ (k := 0) (by omega)
    refine ⟨by rw [fibTable_length]; push_cast; omega, hv0, hv1, innerLoopZ_index_zero hS f, ?_⟩
    rw [outerLoopZ_succ_fibTable (f + 1) S (show 0 + 1 ≤ topIndex S by omega)]
    have h0 : fib 0 = 0 := rfl
    have h1 : fib (0 + 1) = 1 := rfl
    rw [h0, h1, innerLoopZ_index_zero hS]
    rfl

/-- Over unbounded integers: for every `max ≥ 1` and enough fuel, `GetFibonacciZ max` is the list
`[fib 0, fib 1, ..., fib n]` where `n` is the largest index with `fib n ≤ max`:
its last element `fib n` is at most `max`, the next Fibonacci number
`fib (n + 1)` exceeds `max` and is not in the list. -/
theorem unbounded_table_contents (max : Int) (hmax : 1 ≤ max) (fuel : Nat)
    (hfuel : max.toNat + 1 ≤ fuel) :
    ∃ n, GetFibonacciZ fuel max = .ok ((List.range (n + 1)).map fib) ∧
      ((List.range (n + 1)).map fib).getLast? = some (fib n) ∧
      fib n ≤ max ∧ max < fib (n + 1) ∧ (∀ m, fib m ≤ max → m ≤ n) ∧
      fib (n + 1) ∉ (List.range (n + 1)).map fib := by
  have h0 : 0 ≤ max := by omega
  refine ⟨topIndex max, GetFibonacciZ_ok h0 hfuel, fibTable_getLast? _, fib_topIndex_le h0,
    lt_fib_topIndex_succ h0, fun m hm => le_topIndex h0 hm, ?_⟩
  intro hmem
  obtain ⟨k, hk, hkeq⟩ := List.mem_map.mp hmem
  have hk1 : k ≤ topIndex max := by
    have := List.mem_range.mp hk
    omega
  have h1 := fib_mono hk1
  have h2 := fib_topIndex_le h0
  have h3 := lt_fib_topIndex_succ h0
  omega

/-- Over unbounded integers: for a target `S ≥ 1` that is the last element of its table `F`, the
program reports `days = |F|` with deposits `(1, 0)`, these satisfy
`1 * fib (|F| - 1) + 0 * fib |F| = S`, and for every `n > |F|` no non-negative
integers `a`, `b` satisfy `a * fib (n - 1) + b * fib n = S`. -/
theorem unbounded_special_case_deepest (S : Int) (hS : 1 ≤ S) (tf sf : Nat) (F : List Int)
    (hF : GetFibonacciZ tf S = .ok F) (hlast : vecBack F = .ok S) :
    mainZ tf sf S = .ok (.solution (F.length : Int) 1 0) ∧
      1 * fib (F.length - 1) + 0 * fib F.length = S ∧
      ∀ n, F.length < n → ∀ a b : Int, 0 ≤ a → 0 ≤ b → a * fib (n - 1) + b * fib n ≠ S := by
  have hS0 : 0 ≤ S := by omega
  have hFe := GetFibonacciZ_inv hS0 hF
  subst hFe
  rw [vecBack_fibTable] at hlast
  have htop : fib (topIndex S) = S := Except.ok.inj hlast
  have hnext := lt_fib_topIndex_succ hS0
  refine ⟨mainZ_special hF (by rw [vecBack_fibTable, htop]), ?_, ?_⟩
  · rw [fibTable_length, Nat.add_sub_cancel, htop]; ring
  · intro n hn a b ha hb heq
    rw [fibTable_length] at hn
    have h1 : S < fib (n - 1) := lt_of_lt_of_le hnext (fib_mono (by omega))
    have h2 : S < fib n := lt_of_lt_of_le hnext (fib_mono (by omega))
    have hpa : 0 ≤ a * fib (n - 1) := mul_nonneg ha (fib_nonneg _)
    have hpb : 0 ≤ b * fib n := mul_nonneg hb (fib_nonneg _)
    by_cases ha0 : a = 0
    · by_cases hb0 : b = 0
      · rw [ha0, hb0] at heq
        simp at heq
        omega
      · have hb1 : 1 ≤ b := by omega
        have : fib n ≤ b * fib n := le_mul_of_one_le_left (fib_nonneg n) hb1
        linarith
    · have ha1 : 1 ≤ a := by omega
      have : fib (n - 1) ≤ a * fib (n - 1) := le_mul_of_one_le_left (fib_nonneg _) ha1
      linarith

/-- Over unbounded integers: for every target `S ≥ 0` the table construction and the whole program
return a result once each loop has `S + 1` units of fuel; the `while` loop of
`GetFibonacciZ` exits with a last element above `S`; an inner loop with
`fib1 ≥ 1` finishes within `⌊S / fib1⌋ + 1` executions of its body; and at
index 0 (`fib1 = 0`, `fib2 = 1`) the inner loop finishes with exactly one
execution of its body, the hit `i = 0`, `j = S`. -/
theorem unbounded_termination (S : Int) (hS : 0 ≤ S) :
    (∀ tf sf, S.toNat + 1 ≤ tf → S.toNat + 1 ≤ sf →
      (∃ F, GetFibonacciZ tf S = .ok F) ∧ ∃ out, mainZ tf sf S = .ok out) ∧
    (∀ tf, S.toNat + 1 ≤ tf →
      ∃ ret back, fibWhileZ S tf [0, 1] = .ok ret ∧ vecBack ret = .ok back ∧ S < back) ∧
    (∀ fib1 fib2 : Int, 1 ≤ fib1 → fib2 ≠ 0 →
      ∃ r, innerLoopZ S fib1 fib2 ((S / fib1).toNat + 1) 0 = .ok r) ∧
    innerLoopZ S 0 1 1 0 = .ok (some (0, S)) ∧
    innerLoopZ S 0 1 0 0 = .error .outOfFuel := by
  refine ⟨?_, ?_, ?_, innerLoopZ_index_zero hS 0, by simp [innerLoopZ, hS]⟩
  · intro tf sf htf hsf
    have hF := GetFibonacciZ_ok hS htf
    refine ⟨⟨_, hF⟩, ?_⟩
    by_cases hlast : vecBack (fibTable (topIndex S)) = .ok S
    · exact ⟨_, mainZ_special hF hlast⟩
    · obtain ⟨_, _, _, h2, hmain⟩ := mainZ_general (sf) hS hF hlast
      obtain ⟨d, i, j, hout, _⟩ :=
        outerLoopZ_spec hS hsf (m := topIndex S) (topIndex S) (by omega) (le_refl _)
      exact ⟨_, by rw [hmain, hout]⟩
  · intro tf htf
    have hw := fibWhileZ_fibTable S (topIndex S) (fib_topIndex_le hS)
      (lt_fib_topIndex_succ hS) tf 1 (le_refl 1) (by omega)
    have ht : fibTable 1 = [0, 1] := by decide
    have hle := topIndex_le S
    rw [ht, if_pos (by omega)] at hw
    exact ⟨_, _, hw, vecBack_fibTable _, lt_fib_topIndex_succ hS⟩
  · intro fib1 fib2 h1 h2
    apply innerLoopZ_terminates h1 h2
    have h3 : 0 ≤ S / fib1 := Int.ediv_nonneg hS (by omega)
    have h4 : (((S / fib1).toNat : Nat) : Int) = S / fib1 := Int.toNat_of_nonneg h3
    push_cast
    omega

/-- Over unbounded integers: for every target `S ≥ 0` and whatever the fuel, the program never
reads `back()` of an empty table, never indexes outside the table and never
divides by zero (its only possible fault is running out of fuel); the table is
not empty, and at every index `0 ≤ index ≤ |F| - 2` of the general search both
`F[index]` and `F[index + 1]` are valid with `fib2 = F[index + 1] ≥ 1`. -/
theorem unbounded_division_safety (S : Int) (hS : 0 ≤ S) (tf sf : Nat) :
    (∀ e, mainZ tf sf S = .error e → e = .outOfFuel) ∧
    (∀ e, GetFibonacciZ tf S = .error e → e = .outOfFuel) ∧
    ∀ F, GetFibonacciZ tf S = .ok F →
      F ≠ [] ∧ (∃ back, vecBack F = .ok back) ∧
      ∀ index : Int, 0 ≤ index → index ≤ (F.length : Int) - 2 →
        ∃ fib1 fib2, vecAt F index = .ok fib1 ∧ vecAt F (index + 1) = .ok fib2 ∧ 1 ≤ fib2 := by
  have htab := GetFibonacciZ_eq hS tf
  refine ⟨?_, ?_, ?_⟩
  · intro e he
    by_cases hc : S = 0 ∨ topIndex S ≤ tf
    · rw [if_pos hc] at htab
      by_cases hlast : vecBack (fibTable (topIndex S)) = .ok S
      · rw [mainZ_special htab hlast] at he
        simp at he
      · obtain ⟨_, _, _, _, hmain⟩ := mainZ_general (sf) hS htab hlast
        rw [hmain] at he
        rcases outerLoopZ_no_fault sf S (m := topIndex S) (topIndex S) (le_refl _) with
          ⟨r, hr⟩ | hr
        · rw [hr] at he
          simp at he
        · rw [hr] at he
          exact (Except.error.inj he).symm
    · rw [if_neg hc] at htab
      simp only [mainZ, htab] at he
      exact (Except.error.inj he).symm
  · intro e he
    rw [htab] at he
    split at he
    · simp at he
    · exact (Except.error.inj he).symm
  · intro F hF
    have hFe := GetFibonacciZ_inv hS hF
    subst hFe
    refine ⟨fibTable_ne_nil _, ⟨_, vecBack_fibTable _⟩, ?_⟩
    intro index h0 hle
    rw [fibTable_length] at hle
    push_cast at hle
    obtain ⟨k, rfl⟩ := Int.eq_ofNat_of_zero_le h0
    exact ⟨fib k, fib (k + 1), vecAt_fibTable (by omega), vecAt_fibTable_succ (by omega),
      fib_pos (by omega)⟩

/-! ## Further facts about the table and the search -/

theorem fib_succ_le_two_mul {n : Nat} (h : 1 ≤ n) : fib (n + 1) ≤ 2 * fib n := by
  obtain ⟨m, rfl⟩ : ∃ m, n = m + 1 := ⟨n - 1, by omega⟩
  have h1 : fib (m + 1 + 1) = fib (m + 1) + fib m := fib_add_two m
  have h2 : fib m ≤ fib (m + 1) := fib_mono (Nat.le_succ m)
  omega

theorem fibTable_pairwise (n : Nat) : (fibTable n).Pairwise (· ≤ ·) := by
  unfold fibTable
  rw [List.pairwise_map]
  exact (List.pairwise_lt_range (n + 1)).imp (fun h => fib_mono (Nat.le_of_lt h))

/-- A target that is no Fibonacci number is not the last element of its
table. -/
theorem not_top_of_not_fib {S : Int} (hnf : ∀ k, S ≠ fib k) :
    vecBack (fibTable (topIndex S)) ≠ .ok S := by
  rw [vecBack_fibTable]
  intro h
  exact hnf _ (Except.ok.inj h).symm

/-- A non-negative target that is no Fibonacci number is at least 4. -/
theorem four_le_of_not_fib {S : Int} (hS : 0 ≤ S) (hnf : ∀ k, S ≠ fib k) : 4 ≤ S := by
  by_contra hlt
  have h0 := hnf 0
  have h1 := hnf 1
  have h3 := hnf 3
  have h4 := hnf 4
  have e0 : fib 0 = 0 := rfl
  have e1 : fib 1 = 1 := rfl
  have e3 : fib 3 = 2 := rfl
  have e4 : fib 4 = 3 := rfl
  omega

/-- A non-negative target that is not the top of its table is no Fibonacci
number. -/
theorem not_fib_of_top_ne {S : Int} (hS : 0 ≤ S) (h : fib (topIndex S) ≠ S) :
    ∀ k, S ≠ fib k :=
  fun k hk => h ((isFib_iff_top hS).mp ⟨k, hk⟩)

/-- Past the search range no index admits non-negative deposits: for a target
`S ≥ 1` that is not the top `fib m` of its table, `i * fib n + j * fib (n+1)`
misses `S` for every `n ≥ m`. -/
theorem no_solution_beyond {S : Int} (hS : 1 ≤ S) (hne : fib (topIndex S) ≠ S) :
    ∀ n, topIndex S ≤ n → ∀ i' j' : Int, 0 ≤ i' → 0 ≤ j' →
      i' * fib n + j' * fib (n + 1) ≠ S := by
  intro n hn i' j' hi hj heq
  have hS0 : 0 ≤ S := by omega
  have hle := fib_topIndex_le hS0
  have hlt := lt_fib_topIndex_succ hS0
  have h2 := fib_succ_le_two_mul (show 1 ≤ topIndex S by have := two_le_topIndex hS; omega)
  have hpi : 0 ≤ i' * fib n := mul_nonneg hi (fib_nonneg _)
  have hpj : 0 ≤ j' * fib (n + 1) := mul_nonneg hj (fib_nonneg _)
  have hbig : S < fib (n + 1) := lt_of_lt_of_le hlt (fib_mono (by omega))
  have hj0 : j' = 0 := by
    by_contra hj0
    have : fib (n + 1) ≤ j' * fib (n + 1) :=
      le_mul_of_one_le_left (fib_nonneg _) (by omega)
    omega
  rw [hj0, zero_mul, add_zero] at heq
  by_cases hnm : n = topIndex S
  · rw [hnm] at heq
    by_cases hi1 : i' ≤ 1
    · have hcases : i' = 0 ∨ i' = 1 := by omega
      rcases hcases with h | h
      · rw [h, zero_mul] at heq; omega
      · rw [h, one_mul] at heq; exact hne heq
    · have : 2 * fib (topIndex S) ≤ i' * fib (topIndex S) :=
        Int.mul_le_mul_of_nonneg_right (by omega) (fib_nonneg _)
      omega
  · have hbig' : S < fib n := lt_of_lt_of_le hlt (fib_mono (by omega))
    by_cases hi0 : i' = 0
    · rw [hi0, zero_mul] at heq; omega
    · have : fib n ≤ i' * fib n := le_mul_of_one_le_left (fib_nonneg _) (by omega)
      omega

/-! ## Further properties of the program over unbounded integers -/

/-- Over unbounded integers: for every `max ≥ 0` and enough fuel, `GetFibonacciZ max` returns a
list that is not empty and non-decreasing (each element is at most the next
one, and at most every later one), and the list returned does not depend on
the fuel: `GetFibonacciZ` is a function of `max` alone. -/
theorem unbounded_table_nondecreasing (max : Int) (hmax : 0 ≤ max) (fuel : Nat)
    (hfuel : max.toNat + 1 ≤ fuel) :
    ∃ F, GetFibonacciZ fuel max = .ok F ∧ F ≠ [] ∧
      (∀ (k : Nat) (x y : Int), F[k]? = some x → F[k + 1]? = some y → x ≤ y) ∧
      F.Pairwise (· ≤ ·) ∧
      ∀ fuel' F', GetFibonacciZ fuel' max = .ok F' → F' = F := by
  refine ⟨_, GetFibonacciZ_ok hmax hfuel, fibTable_ne_nil _, ?_, fibTable_pairwise _, ?_⟩
  · intro k x y hx hy
    have hk : k + 1 < (fibTable (topIndex max)).length := by
      by_contra hge
      rw [List.getElem?_eq_none (by omega)] at hy
      simp at hy
    rw [fibTable_length] at hk
    rw [fibTable_getElem? (show k ≤ topIndex max by omega)] at hx
    rw [fibTable_getElem? (show k + 1 ≤ topIndex max by omega)] at hy
    rw [← Option.some.inj hx, ← Option.some.inj hy]
    exact fib_mono (Nat.le_succ k)
  · intro fuel' F' hF'
    exact GetFibonacciZ_inv hmax hF'

/-- Over unbounded integers: for every target `S ≥ 0` that is no Fibonacci number the program
reports a triple `(days, i, j)` with `i ≥ 0`, `j ≥ 0` and
`i * fib days + j * fib (days + 1) = S`: the coefficients are the table
entries at positions `days` and `days + 1`. -/
theorem unbounded_general_search_relation (S : Int) (hS : 0 ≤ S) (hnf : ∀ k, S ≠ fib k)
    (tf sf : Nat) (htf : S.toNat + 1 ≤ tf) (hsf : S.toNat + 1 ≤ sf) :
    ∃ (days : Nat) (i j : Int) (F : List Int),
      mainZ tf sf S = .ok (.solution (days : Int) i j) ∧ 0 ≤ i ∧ 0 ≤ j ∧
      i * fib days + j * fib (days + 1) = S ∧
      GetFibonacciZ tf S = .ok F ∧ vecAt F (days : Int) = .ok (fib days) ∧
      vecAt F ((days : Int) + 1) = .ok (fib (days + 1)) := by
  have hF := GetFibonacciZ_ok hS htf
  obtain ⟨_, _, _, h2, hmain⟩ := mainZ_general sf hS hF (not_top_of_not_fib hnf)
  obtain ⟨d, i, j, hout, hd, hi, hj, heq, _, _⟩ :=
    outerLoopZ_spec hS hsf (m := topIndex S) (topIndex S) (by omega) (le_refl _)
  exact ⟨d, i, j, _, by rw [hmain, hout], hi, hj, heq, hF, vecAt_fibTable (by omega),
    vecAt_fibTable_succ (by omega)⟩

/-- Over unbounded integers: for every target `S ≥ 1` that is no Fibonacci number, the reported
`days` is the largest natural number `n`, over all `n` and not only those of
the table, for which non-negative integers `i`, `j` with
`i * fib n + j * fib (n + 1) = S` exist. -/
theorem unbounded_global_maximality (S : Int) (hS : 1 ≤ S) (hnf : ∀ k, S ≠ fib k)
    (tf sf : Nat) (htf : S.toNat + 1 ≤ tf) (hsf : S.toNat + 1 ≤ sf) :
    ∃ (days : Nat) (i j : Int),
      mainZ tf sf S = .ok (.solution (days : Int) i j) ∧
      (0 ≤ i ∧ 0 ≤ j ∧ i * fib days + j * fib (days + 1) = S) ∧
      ∀ n : Nat, days < n → ∀ i' j' : Int, 0 ≤ i' → 0 ≤ j' →
        i' * fib n + j' * fib (n + 1) ≠ S := by
  have hS0 : 0 ≤ S := by omega
  have hF := GetFibonacciZ_ok hS0 htf
  obtain ⟨_, hne, _, h2, hmain⟩ := mainZ_general sf hS0 hF (not_top_of_not_fib hnf)
  obtain ⟨d, i, j, hout, hd, hi, hj, heq, _, hmax⟩ :=
    outerLoopZ_spec hS0 hsf (m := topIndex S) (topIndex S) (by omega) (le_refl _)
  refine ⟨d, i, j, by rw [hmain, hout], ⟨hi, hj, heq⟩, ?_⟩
  intro n hn i' j' hi' hj'
  by_cases hin : n < topIndex S
  · exact hmax n hn hin i' j' hi' hj'
  · exact no_solution_beyond hS hne n (by omega) i' j' hi' hj'

/-- Over unbounded integers: for a target `S ≥ 0` that is no Fibonacci number, `S ≥ 4`, the
equation `2 * i + 3 * j = S` of index 3 (`fib 3 = 2`, `fib 4 = 3`) has a
non-negative solution, and the program reports `days ≥ 3`; for a Fibonacci
target the program reports `days = |F| ≥ 1`. In neither case is `days = 0`
reported. -/
theorem unbounded_fallback_never_reported (S : Int) (hS : 0 ≤ S) (tf sf : Nat)
    (htf : S.toNat + 1 ≤ tf) (hsf : S.toNat + 1 ≤ sf) :
    ((∀ k, S ≠ fib k) →
      4 ≤ S ∧ fib 3 = 2 ∧ fib 4 = 3 ∧
      (∃ i' j' : Int, 0 ≤ i' ∧ 0 ≤ j' ∧ 2 * i' + 3 * j' = S) ∧
      ∃ days i j : Int, mainZ tf sf S = .ok (.solution days i j) ∧ 3 ≤ days) ∧
    ((∃ k, S = fib k) →
      ∃ F, GetFibonacciZ tf S = .ok F ∧
        mainZ tf sf S = .ok (.solution (F.length : Int) 1 0) ∧ 1 ≤ (F.length : Int)) ∧
    ∃ days i j : Int, mainZ tf sf S = .ok (.solution days i j) ∧ days ≠ 0 := by
  have hF := GetFibonacciZ_ok hS htf
  have e3 : fib 3 = 2 := rfl
  have e4 : fib (3 + 1) = 3 := rfl
  have hnonfib : (∀ k, S ≠ fib k) →
      4 ≤ S ∧ fib 3 = 2 ∧ fib 4 = 3 ∧
      (∃ i' j' : Int, 0 ≤ i' ∧ 0 ≤ j' ∧ 2 * i' + 3 * j' = S) ∧
      ∃ days i j : Int, mainZ tf sf S = .ok (.solution days i j) ∧ 3 ≤ days := by
    intro hnf
    have h4 := four_le_of_not_fib hS hnf
    have hsol : ∃ i' j' : Int, 0 ≤ i' ∧ 0 ≤ j' ∧ 2 * i' + 3 * j' = S := by
      by_cases hev : S % 2 = 0
      · exact ⟨S / 2, 0, by omega, le_refl _, by omega⟩
      · exact ⟨(S - 3) / 2, 1, by omega, by omega, by omega⟩
    obtain ⟨_, _, _, _, hmain⟩ := mainZ_general sf hS hF (not_top_of_not_fib hnf)
    have hm : 4 ≤ topIndex S := le_topIndex hS (by rw [show fib 4 = 3 from rfl]; omega)
    obtain ⟨d, i, j, hout, hd, _, _, _, _, hmax⟩ :=
      outerLoopZ_spec hS hsf (m := topIndex S) (topIndex S) (by omega) (le_refl _)
    refine ⟨h4, e3, rfl, hsol, d, i, j, by rw [hmain, hout], ?_⟩
    by_contra hlt
    obtain ⟨i', j', hi', hj', heq⟩ := hsol
    apply hmax 3 (by omega) (by omega) i' j' hi' hj'
    rw [e3, e4]
    omega
  have hfibcase : (∃ k, S = fib k) →
      ∃ F, GetFibonacciZ tf S = .ok F ∧
        mainZ tf sf S = .ok (.solution (F.length : Int) 1 0) ∧ 1 ≤ (F.length : Int) := by
    intro hfib
    have htop := (isFib_iff_top hS).mp hfib
    refine ⟨_, hF, mainZ_special hF (by rw [vecBack_fibTable, htop]), ?_⟩
    rw [fibTable_length]
    push_cast
    omega
  refine ⟨hnonfib, hfibcase, ?_⟩
  by_cases hfib : ∃ k, S = fib k
  · obtain ⟨F, _, hm, hl⟩ := hfibcase hfib
    exact ⟨_, 1, 0, hm, by omega⟩
  · obtain ⟨_, _, _, _, d, i, j, hm, hd⟩ := hnonfib (fun k hk => hfib ⟨k, hk⟩)
    exact ⟨d, i, j, hm, by omega⟩

/-! ## The range-checked execution agrees with the unbounded program -/

theorem inRange_ok {lo hi x : Int} (h1 : lo ≤ x) (h2 : x ≤ hi) : inRange lo hi x = .ok x := by
  simp only [inRange, h1, h2, and_self, if_true]

/-- The range-checked loop of `GetFibonacciZ` started on `[fib 0, ..., fib k]`
follows the plain loop when the range contains `[0, fib (n + 1)]`, `fib (n+1)`
being the first Fibonacci number above `max`. -/
theorem fibWhileChecked_fibTable {lo hi : Int} (max : Int) (n : Nat) (hlo : lo ≤ 0)
    (hhi : fib (n + 1) ≤ hi) (hn : fib n ≤ max) (hn1 : max < fib (n + 1)) :
    ∀ (fuel k : Nat), 1 ≤ k → k ≤ n + 1 →
      fibWhileChecked lo hi max fuel (fibTable k) = liftFault (fibWhileZ max fuel (fibTable k)) := by
  intro fuel
  induction fuel with
  | zero =>
    intro k _ _
    simp only [fibWhileChecked, fibWhileZ, vecBack_fibTable]
    split <;> rfl
  | succ fuel ih =>
    intro k hk hkn
    by_cases hlast : k = n + 1
    · subst hlast
      simp only [fibWhileChecked, fibWhileZ, vecBack_fibTable]
      rw [if_neg (by omega), if_neg (by omega)]
      rfl
    · have hle : fib k ≤ max := le_trans (fib_mono (by omega)) hn
      rw [fibWhileZ_step max fuel k hk hle, ← ih (k + 1) (by omega) (by omega)]
      obtain ⟨m, rfl⟩ : ∃ m, k = m + 1 := ⟨k - 1, by omega⟩
      have e1 : ((fibTable (m + 1)).length : Int) - 1 = ((m + 1 : Nat) : Int) := by
        rw [fibTable_length]; push_cast; ring
      have e2 : ((fibTable (m + 1)).length : Int) - 2 = ((m : Nat) : Int) := by
        rw [fibTable_length]; push_cast; ring
      have hsum : fib (m + 1) + fib m = fib (m + 1 + 1) := (fib_add_two m).symm
      have hr : inRange lo hi (fib (m + 1) + fib m) = .ok (fib (m + 1 + 1)) := by
        rw [hsum]
        exact inRange_ok (le_trans hlo (fib_nonneg _))
          (le_trans (fib_mono (by omega)) hhi)
      simp only [fibWhileChecked, vecBack_fibTable, if_pos hle, e1, e2,
        vecAt_fibTable (Nat.le_refl (m + 1)), vecAt_fibTable (Nat.le_succ m), hr]
      rw [fibTable_succ (m + 1)]

/-- Range-checked `GetFibonacciZ` agrees with the plain one on a bound
`max ≥ 0` when the range contains `[0, 2 * max]`. -/
theorem GetFibonacciChecked_eq {lo hi max : Int} (hmax : 0 ≤ max) (hlo : lo ≤ 0)
    (hhi : 2 * max ≤ hi) (fuel : Nat) :
    GetFibonacciChecked lo hi fuel max = liftFault (GetFibonacciZ fuel max) := by
  by_cases h0 : max = 0
  · simp only [GetFibonacciChecked, GetFibonacciZ, if_pos h0]
    rfl
  · have h1 : 1 ≤ max := by omega
    have h2 := two_le_topIndex h1
    have hle := fib_topIndex_le hmax
    have hbound : fib (topIndex max + 1) ≤ hi := by
      have := fib_succ_le_two_mul (show 1 ≤ topIndex max by omega)
      omega
    have hw := fibWhileChecked_fibTable max (topIndex max) hlo hbound hle
      (lt_fib_topIndex_succ hmax) fuel 1 (le_refl 1) (by omega)
    have ht : fibTable 1 = [0, 1] := by decide
    rw [ht] at hw
    simp only [GetFibonacciChecked, GetFibonacciZ, if_neg h0, hw]
    cases fibWhileZ max fuel [0, 1] <;> rfl

/-- The range-checked inner loop follows the plain one for coefficients
`1 ≤ fib1 ≤ S`, `fib2 ≥ 1`, from any `i ≥ 0` with `i * fib1 ≤ S + fib1`, when
the range contains `[0, 2 * S]`. -/
theorem innerLoopChecked_eq {lo hi S f1 f2 : Int} (hlo : lo ≤ 0) (hhi : 2 * S ≤ hi)
    (hS : 1 ≤ S) (hf1 : 1 ≤ f1) (hf1S : f1 ≤ S) (hf2 : 1 ≤ f2) :
    ∀ (fuel : Nat) (i : Int), 0 ≤ i → i * f1 ≤ S + f1 →
      innerLoopChecked lo hi S f1 f2 fuel i = liftFault (innerLoopZ S f1 f2 fuel i) := by
  intro fuel
  induction fuel with
  | zero =>
    intro i hi0 hb
    have hp : 0 ≤ i * f1 := mul_nonneg hi0 (by omega)
    simp only [innerLoopChecked, innerLoopZ, inRange_ok (le_trans hlo hp) (show i * f1 ≤ hi by omega)]
    split <;> rfl
  | succ fuel ih =>
    intro i hi0 hb
    have hp : 0 ≤ i * f1 := mul_nonneg hi0 (by omega)
    have hf2' : f2 ≠ 0 := by omega
    simp only [innerLoopChecked, innerLoopZ, if_neg hf2',
      inRange_ok (le_trans hlo hp) (show i * f1 ≤ hi by omega)]
    by_cases hc : i * f1 ≤ S
    · have hrem : 0 ≤ S - i * f1 := by omega
      rw [if_pos hc, if_pos hc]
      simp only [inRange_ok (le_trans hlo hrem) (show S - i * f1 ≤ hi by omega)]
      by_cases hm : (S - i * f1).tmod f2 = 0
      · have hq0 : 0 ≤ (S - i * f1).tdiv f2 := Int.tdiv_nonneg hrem (by omega)
        have hq1 : (S - i * f1).tdiv f2 ≤ S - i * f1 := by
          rw [Int.tdiv_eq_ediv hrem (by omega)]
          exact Int.ediv_le_self _ hrem
        rw [if_pos hm, if_pos hm]
        simp only [inRange_ok (le_trans hlo hq0) (show (S - i * f1).tdiv f2 ≤ hi by omega)]
        rfl
      · have hile : i ≤ i * f1 := le_mul_of_one_le_right hi0 hf1
        rw [if_neg hm, if_neg hm]
        simp only [inRange_ok (show lo ≤ i + 1 by omega) (show i + 1 ≤ hi by omega)]
        apply ih (i + 1) (by omega)
        rw [add_mul, one_mul]
        omega
    · rw [if_neg hc, if_neg hc]
      rfl

/-- At index 0 (`fib1 = 0`, `fib2 = 1`) the range-checked inner loop follows
the plain one when the range contains `[0, S]`. -/
theorem innerLoopChecked_index_zero {lo hi S : Int} (hlo : lo ≤ 0) (hS : 0 ≤ S) (hhi : S ≤ hi)
    (fuel : Nat) :
    innerLoopChecked lo hi S 0 1 fuel 0 = liftFault (innerLoopZ S 0 1 fuel 0) := by
  have h0 : inRange lo hi 0 = .ok 0 := inRange_ok hlo (by omega)
  have h1 : inRange lo hi S = .ok S := inRange_ok (by omega) hhi
  cases fuel with
  | zero => simp [innerLoopChecked, innerLoopZ, h0, hS, liftFault]
  | succ f => simp [innerLoopChecked, innerLoopZ, h0, h1, hS, liftFault]

/-- The range-checked outer loop follows the plain one on a table
`[fib 0, ..., fib m]` with `fib m ≤ S`, when the range contains `[0, 2 * S]`. -/
theorem outerLoopChecked_eq {lo hi S : Int} (hlo : lo ≤ 0) (hhi : 2 * S ≤ hi) (hS : 1 ≤ S)
    (fuel : Nat) {m : Nat} (hm : fib m ≤ S) :
    ∀ n, n ≤ m →
      outerLoopChecked lo hi fuel S (fibTable m) n = liftFault (outerLoopZ fuel S (fibTable m) n) := by
  intro n
  induction n with
  | zero => intro _; rfl
  | succ n ih =>
    intro hnm
    have hin : innerLoopChecked lo hi S (fib n) (fib (n + 1)) fuel 0 =
        liftFault (innerLoopZ S (fib n) (fib (n + 1)) fuel 0) := by
      by_cases hn : n = 0
      · subst hn
        have h0 : fib 0 = 0 := rfl
        have h1 : fib (0 + 1) = 1 := rfl
        rw [h0, h1]
        exact innerLoopChecked_index_zero hlo (by omega) (by omega) fuel
      · have hf1 : 1 ≤ fib n := fib_pos (by omega)
        have hf1S : fib n ≤ S := le_trans (fib_mono (by omega)) hm
        exact innerLoopChecked_eq hlo hhi hS hf1 hf1S (fib_pos (by omega)) fuel 0 (le_refl _)
          (by omega)
    rw [outerLoopZ_succ_fibTable fuel S hnm]
    simp only [outerLoopChecked, vecAt_fibTable (show n ≤ m by omega), vecAt_fibTable_succ hnm,
      hin]
    cases hr : innerLoopZ S (fib n) (fib (n + 1)) fuel 0 with
    | error e => rfl
    | ok r =>
      match r with
      | some (a, b) => rfl
      | none => exact ih (by omega)

/-- The range-checked program agrees with the embedding on every target
`S ≥ 1`, whatever the fuel, when the range contains `[0, 2 * S]`. -/
theorem mainChecked_eq {lo hi S : Int} (hlo : lo ≤ 0) (hhi : 2 * S ≤ hi) (hS : 1 ≤ S)
    (tf sf : Nat) : mainChecked lo hi tf sf S = liftFault (mainZ tf sf S) := by
  have hS0 : 0 ≤ S := by omega
  have hr : inRange lo hi S = .ok S := inRange_ok (by omega) (by omega)
  have htab := GetFibonacciZ_eq hS0 tf
  simp only [mainChecked, mainZ, hr, GetFibonacciChecked_eq hS0 hlo hhi tf]
  by_cases hc : S = 0 ∨ topIndex S ≤ tf
  · rw [if_pos hc] at htab
    rw [htab]
    simp only [liftFault, vecBack_fibTable]
    by_cases htop : fib (topIndex S) = S
    · rw [if_pos htop, if_pos htop]
    · rw [if_neg htop, if_neg htop]
      have hlen : (((fibTable (topIndex S)).length : Int) - 2 + 1).toNat = topIndex S := by
        rw [fibTable_length]; push_cast; omega
      rw [generalSearchZ, hlen]
      exact outerLoopChecked_eq hlo hhi hS sf (fib_topIndex_le hS0) (topIndex S) (le_refl _)
  · rw [if_neg hc] at htab
    rw [htab]
    rfl

/-! ## Wrap-around arithmetic -/

theorem wrap64_eq {x : Int} (h1 : -2 ^ 63 ≤ x) (h2 : x < 2 ^ 63) : wrap64 x = x := by
  unfold wrap64
  rw [Int.emod_eq_of_lt (by omega) (by omega)]
  omega

theorem wrap64_lt (x : Int) : wrap64 x < 2 ^ 63 := by
  unfold wrap64
  have := Int.emod_lt_of_pos (x + 2 ^ 63) (show (0 : Int) < 2 ^ 64 by norm_num)
  omega

theorem le_wrap64 (x : Int) : -2 ^ 63 ≤ wrap64 x := by
  unfold wrap64
  have := Int.emod_nonneg (x + 2 ^ 63) (show (2 : Int) ^ 64 ≠ 0 by norm_num)
  omega

theorem fib_88 : fib 88 = 1100087778366101931 := by
  rw [fib_eq_natFib]; norm_num

theorem fib_89 : fib 89 = 1779979416004714189 := by
  rw [fib_eq_natFib]; norm_num

theorem fib_90 : fib 90 = 2880067194370816120 := by
  rw [fib_eq_natFib]; norm_num

theorem fib_92 : fib 92 = 7540113804746346429 := by
  rw [fib_eq_natFib]; norm_num

theorem fib_93 : fib 93 = 12200160415121876738 := by
  rw [fib_eq_natFib]; norm_num

/-! ## The program agrees with its unbounded reference below `fib 92`

`fib 92 = 7540113804746346429` is the first target for which the table
construction computes `fib 93 > 2^63 - 1`. Below it no operation of the run
leaves the range of `int64_t`. -/

theorem index_lt_of_fib_le {S : Int} (hb : S < 7540113804746346429) {m : Nat}
    (hm : fib m ≤ S) : m ≤ 91 := by
  by_contra h
  have h1 : fib 92 ≤ fib m := fib_mono (by omega)
  rw [fib_92] at h1
  omega

theorem fibWhile_eq_Z (max : Int) (n : Nat) (hhi : fib (n + 1) < 2 ^ 63) (hn : fib n ≤ max)
    (hn1 : max < fib (n + 1)) :
    ∀ (fuel k : Nat), 1 ≤ k → k ≤ n + 1 →
      fibWhile max fuel (fibTable k) = fibWhileZ max fuel (fibTable k) := by
  intro fuel
  induction fuel with
  | zero =>
    intro k _ _
    simp only [fibWhile, fibWhileZ, vecBack_fibTable]
  | succ fuel ih =>
    intro k hk hkn
    by_cases hlast : k = n + 1
    · subst hlast
      simp only [fibWhile, fibWhileZ, vecBack_fibTable]
      rw [if_neg (by omega), if_neg (by omega)]
    · have hle : fib k ≤ max := le_trans (fib_mono (by omega)) hn
      rw [fibWhileZ_step max fuel k hk hle, ← ih (k + 1) (by omega) (by omega)]
      obtain ⟨m, rfl⟩ : ∃ m, k = m + 1 := ⟨k - 1, by omega⟩
      have e1 : ((fibTable (m + 1)).length : Int) - 1 = ((m + 1 : Nat) : Int) := by
        rw [fibTable_length]; push_cast; ring
      have e2 : ((fibTable (m + 1)).length : Int) - 2 = ((m : Nat) : Int) := by
        rw [fibTable_length]; push_cast; ring
      have hsum : fib (m + 1) + fib m = fib (m + 1 + 1) := (fib_add_two m).symm
      have hr : wrap64 (fib (m + 1) + fib m) = fib (m + 1 + 1) := by
        rw [hsum]
        have h1 := fib_nonneg (m + 1 + 1)
        have h2 : fib (m + 1 + 1) ≤ fib (n + 1) := fib_mono (by omega)
        exact wrap64_eq (by omega) (by omega)
      simp only [fibWhile, vecBack_fibTable, if_pos hle, e1, e2,
        vecAt_fibTable (Nat.le_refl (m + 1)), vecAt_fibTable (Nat.le_succ m), hr]
      rw [fibTable_succ (m + 1)]

/-- Below `fib 92` the table construction is the unbounded one. -/
theorem GetFibonacci_eq_Z {max : Int} (hmax : 0 ≤ max) (hb : max < 7540113804746346429)
    (fuel : Nat) : GetFibonacci fuel max = GetFibonacciZ fuel max := by
  by_cases h0 : max = 0
  · simp only [GetFibonacci, GetFibonacciZ, if_pos h0]
  · have h1 : 1 ≤ max := by omega
    have h2 := two_le_topIndex h1
    have hle := fib_topIndex_le hmax
    have h91 := index_lt_of_fib_le hb hle
    have hbound : fib (topIndex max + 1) < 2 ^ 63 := by
      have h3 : fib (topIndex max + 1) ≤ fib 92 := fib_mono (by omega)
      rw [fib_92] at h3
      omega
    have hw := fibWhile_eq_Z max (topIndex max) hbound hle
      (lt_fib_topIndex_succ hmax) fuel 1 (le_refl 1) (by omega)
    have ht : fibTable 1 = [0, 1] := by decide
    rw [ht] at hw
    simp only [GetFibonacci, GetFibonacciZ, if_neg h0, hw]

/-- The inner loop is the unbounded one when some `K` bounds the candidates:
`S < K * fib1` and `K * fib1` fits `int64_t`. -/
theorem innerLoop_eq_Z {S f1 f2 K : Int} (hS0 : 0 ≤ S) (hS : S < 2 ^ 63) (hf1 : 1 ≤ f1)
    (hf2 : f2 ≠ 0) (hK1 : S < K * f1) (hK2 : K * f1 < 2 ^ 63) :
    ∀ (fuel : Nat) (i : Int), 0 ≤ i → i ≤ K →
      innerLoop S f1 f2 fuel i = innerLoopZ S f1 f2 fuel i := by
  have hprod : ∀ i : Int, 0 ≤ i → i ≤ K → wrap64 (i * f1) = i * f1 := by
    intro i hi0 hiK
    have hp : 0 ≤ i * f1 := mul_nonneg hi0 (by omega)
    have hq : i * f1 ≤ K * f1 := Int.mul_le_mul_of_nonneg_right hiK (by omega)
    exact wrap64_eq (by omega) (by omega)
  intro fuel
  induction fuel with
  | zero =>
    intro i hi0 hiK
    simp only [innerLoop, innerLoopZ, hprod i hi0 hiK]
  | succ fuel ih =>
    intro i hi0 hiK
    have hp : 0 ≤ i * f1 := mul_nonneg hi0 (by omega)
    simp only [innerLoop, innerLoopZ, hprod i hi0 hiK, if_neg hf2]
    by_cases hc : i * f1 ≤ S
    · have hacc : wrap64 (S - i * f1) = S - i * f1 := wrap64_eq (by omega) (by omega)
      have hno : ¬ (f2 = -1 ∧ S - i * f1 = -2 ^ 63) := by
        intro h
        omega
      have hiltK : i < K := by
        by_contra hge
        have hq : K * f1 ≤ i * f1 := Int.mul_le_mul_of_nonneg_right (by omega) (by omega)
        omega
      have hKle : K ≤ K * f1 := le_mul_of_one_le_right (by omega) hf1
      have hsucc : wrap64 (i + 1) = i + 1 := wrap64_eq (by omega) (by omega)
      rw [if_pos hc, if_pos hc, hacc, if_neg hno, hsucc]
      by_cases hm : (S - i * f1).tmod f2 = 0
      · rw [if_pos hm, if_pos hm]
      · rw [if_neg hm, if_neg hm]
        exact ih (i + 1) (by omega) (by omega)
    · rw [if_neg hc, if_neg hc]

/-- At index 0 (`fib1 = 0`, `fib2 = 1`) the inner loop is the unbounded one
for every `int64_t` target `S ≥ 0`. -/
theorem innerLoop_index_zero_eq_Z {S : Int} (hS0 : 0 ≤ S) (hS : S < 2 ^ 63) (fuel : Nat) :
    innerLoop S 0 1 fuel 0 = innerLoopZ S 0 1 fuel 0 := by
  have h0 : wrap64 0 = 0 := wrap64_eq (by norm_num) (by norm_num)
  have h1 : wrap64 S = S := wrap64_eq (by omega) hS
  cases fuel with
  | zero => simp [innerLoop, innerLoopZ, h0]
  | succ f => simp [innerLoop, innerLoopZ, h0, h1, hS0]

/-- Below `fib 92` every index `1 ≤ d ≤ 90` of the search has a bound `K` on
its candidates with `K * fib d` inside `int64_t`. -/
theorem exists_candidate_bound {S : Int} (hS0 : 0 ≤ S) (hb : S < 7540113804746346429)
    {d : Nat} (hd1 : 1 ≤ d) (hd : d ≤ 90) :
    ∃ K : Int, S < K * fib d ∧ K * fib d < 2 ^ 63 := by
  have hf1 : 1 ≤ fib d := fib_pos hd1
  have hlt : S < (S / fib d + 1) * fib d := Int.lt_ediv_add_one_mul_self S (by omega)
  have hmul : S / fib d * fib d ≤ S := Int.ediv_mul_le S (by omega)
  refine ⟨S / fib d + 1, hlt, ?_⟩
  rw [add_mul, one_mul]
  rcases (show d ≤ 88 ∨ d = 89 ∨ d = 90 by omega) with h | h | h
  · have h88 : fib d ≤ fib 88 := fib_mono h
    rw [fib_88] at h88
    omega
  · subst h
    rw [fib_89] at hmul hlt hf1 ⊢
    have hq : S / 1779979416004714189 < 5 :=
      Int.ediv_lt_of_lt_mul (by norm_num) (by omega)
    have hq0 : 0 ≤ S / 1779979416004714189 := Int.ediv_nonneg hS0 (by norm_num)
    omega
  · subst h
    rw [fib_90] at hmul hlt hf1 ⊢
    have hq : S / 2880067194370816120 < 3 :=
      Int.ediv_lt_of_lt_mul (by norm_num) (by omega)
    have hq0 : 0 ≤ S / 2880067194370816120 := Int.ediv_nonneg hS0 (by norm_num)
    omega

theorem outerLoop_succ_fibTable (fuel : Nat) (S : Int) {m n : Nat} (h : n + 1 ≤ m) :
    outerLoop fuel S (fibTable m) (n + 1) =
      match innerLoop S (fib n) (fib (n + 1)) fuel 0 with
      | .error e => .error e
      | .ok (some (i, j)) => .ok (.solution (n : Int) i j)
      | .ok none => outerLoop fuel S (fibTable m) n := by
  simp only [outerLoop, vecAt_fibTable (show n ≤ m by omega), vecAt_fibTable_succ h]

/-- Below `fib 92` each inner loop of the search on the table
`[fib 0, ..., fib m]` is the unbounded one. -/
theorem innerLoop_fib_eq_Z {S : Int} (hS0 : 0 ≤ S) (hb : S < 7540113804746346429)
    {m n : Nat} (hm : fib m ≤ S) (hnm : n + 1 ≤ m) (fuel : Nat) :
    innerLoop S (fib n) (fib (n + 1)) fuel 0 = innerLoopZ S (fib n) (fib (n + 1)) fuel 0 := by
  have h91 := index_lt_of_fib_le hb hm
  have hS : S < 2 ^ 63 := by omega
  by_cases hn : n = 0
  · subst hn
    have h0 : fib 0 = 0 := rfl
    have h1 : fib (0 + 1) = 1 := rfl
    rw [h0, h1]
    exact innerLoop_index_zero_eq_Z hS0 hS fuel
  · obtain ⟨K, hK1, hK2⟩ := exists_candidate_bound hS0 hb (show 1 ≤ n by omega)
      (show n ≤ 90 by omega)
    have hf1 : 1 ≤ fib n := fib_pos (by omega)
    have hf2 : fib (n + 1) ≠ 0 := by
      have := fib_pos (show 1 ≤ n + 1 by omega)
      omega
    have hK0 : 0 ≤ K := by
      by_contra hneg
      have : K * fib n ≤ 0 := Int.mul_nonpos_of_nonpos_of_nonneg (by omega) (by omega)
      omega
    exact innerLoop_eq_Z hS0 hS hf1 hf2 hK1 hK2 fuel 0 (le_refl _) hK0

/-- Below `fib 92` the search on the table `[fib 0, ..., fib m]`, `fib m ≤ S`,
is the unbounded one. -/
theorem outerLoop_eq_Z {S : Int} (hS0 : 0 ≤ S) (hb : S < 7540113804746346429)
    (fuel : Nat) {m : Nat} (hm : fib m ≤ S) :
    ∀ n, n ≤ m → outerLoop fuel S (fibTable m) n = outerLoopZ fuel S (fibTable m) n := by
  intro n
  induction n with
  | zero => intro _; rfl
  | succ n ih =>
    intro hnm
    rw [outerLoop_succ_fibTable fuel S hnm, outerLoopZ_succ_fibTable fuel S hnm,
      innerLoop_fib_eq_Z hS0 hb hm hnm fuel, ih (by omega)]

theorem generalSearch_fibTable (fuel : Nat) (S : Int) (m : Nat) :
    generalSearch fuel S (fibTable m) = outerLoop fuel S (fibTable m) m := by
  have : (((fibTable m).length : Int) - 2 + 1).toNat = m := by
    rw [fibTable_length]; push_cast; omega
  rw [generalSearch, this]

/-- Below `fib 92` the general search on the table of the target is the
unbounded one. -/
theorem generalSearch_eq_Z {S : Int} (hS0 : 0 ≤ S) (hb : S < 7540113804746346429)
    (fuel : Nat) :
    generalSearch fuel S (fibTable (topIndex S)) =
      generalSearchZ fuel S (fibTable (topIndex S)) := by
  rw [generalSearch_fibTable, generalSearchZ_fibTable]
  exact outerLoop_eq_Z hS0 hb fuel (fib_topIndex_le hS0) (topIndex S) (le_refl _)

/-- Below `fib 92` the program is its unbounded reference, whatever the
fuel. -/
theorem main_eq_Z {S : Int} (hS0 : 0 ≤ S) (hb : S < 7540113804746346429) (tf sf : Nat) :
    main tf sf S = mainZ tf sf S := by
  have htab := GetFibonacciZ_eq hS0 tf
  simp only [main, mainZ, GetFibonacci_eq_Z hS0 hb tf]
  by_cases hc : S = 0 ∨ topIndex S ≤ tf
  · rw [if_pos hc] at htab
    rw [htab]
    simp only [vecBack_fibTable, generalSearch_eq_Z hS0 hb sf]
  · rw [if_neg hc] at htab
    rw [htab]

/-- A table returned below `fib 92` is `[fib 0, ..., fib (topIndex max)]`. -/
theorem GetFibonacci_inv {max : Int} (hmax : 0 ≤ max) (hb : max < 7540113804746346429)
    {fuel : Nat} {F : List Int} (hF : GetFibonacci fuel max = .ok F) :
    F = fibTable (topIndex max) := by
  rw [GetFibonacci_eq_Z hmax hb] at hF
  exact GetFibonacciZ_inv hmax hF

/-! ## Facts about the program that hold for every target -/

theorem vecBack_append_pair (l : List Int) (a b : Int) : vecBack (l ++ [a, b]) = .ok b := by
  simp [vecBack]

theorem vecAt_append_pair_last (l : List Int) (a b : Int) :
    vecAt (l ++ [a, b]) (((l ++ [a, b]).length : Int) - 1) = .ok b := by
  have hlen : ((l ++ [a, b]).length : Int) - 1 = ((l.length + 1 : Nat) : Int) := by
    simp only [List.length_append, List.length_cons, List.length_nil]; push_cast; ring
  have hget : (l ++ [a, b])[l.length + 1]? = some b := by
    rw [List.getElem?_append_right (by omega)]
    simp
  have hr : (0 : Int) ≤ ((l.length + 1 : Nat) : Int) ∧
      ((l.length + 1 : Nat) : Int) < ((l ++ [a, b]).length : Int) := by
    simp only [List.length_append, List.length_cons, List.length_nil]
    constructor <;> omega
  rw [hlen]
  simp only [vecAt, hr, and_self, if_true, Int.toNat_ofNat, hget]

theorem vecAt_append_pair_prev (l : List Int) (a b : Int) :
    vecAt (l ++ [a, b]) (((l ++ [a, b]).length : Int) - 2) = .ok a := by
  have hlen : ((l ++ [a, b]).length : Int) - 2 = ((l.length : Nat) : Int) := by
    simp only [List.length_append, List.length_cons, List.length_nil]; push_cast; ring
  have hget : (l ++ [a, b])[l.length]? = some a := by
    rw [List.getElem?_append_right (by omega)]
    simp
  have hr : (0 : Int) ≤ ((l.length : Nat) : Int) ∧
      ((l.length : Nat) : Int) < ((l ++ [a, b]).length : Int) := by
    simp only [List.length_append, List.length_cons, List.length_nil]
    constructor <;> omega
  rw [hlen]
  simp only [vecAt, hr, and_self, if_true, Int.toNat_ofNat, hget]

/-- When the bound is the largest `int64_t` (or above), the loop of
`GetFibonacci` never exits: every entry it compares is at most `2^63 - 1`. -/
theorem fibWhile_never_exits {max : Int} (hmax : 2 ^ 63 - 1 ≤ max) :
    ∀ (fuel : Nat) (l : List Int) (a b : Int), b < 2 ^ 63 →
      fibWhile max fuel (l ++ [a, b]) = .error .outOfFuel := by
  intro fuel
  induction fuel with
  | zero =>
    intro l a b hb
    simp only [fibWhile, vecBack_append_pair]
    rw [if_pos (by omega)]
  | succ fuel ih =>
    intro l a b hb
    simp only [fibWhile, vecBack_append_pair, vecAt_append_pair_last, vecAt_append_pair_prev]
    rw [if_pos (by omega)]
    have happ : l ++ [a, b] ++ [wrap64 (b + a)] = (l ++ [a]) ++ [b, wrap64 (b + a)] := by
      simp
    rw [happ]
    exact ih (l ++ [a]) b (wrap64 (b + a)) (wrap64_lt _)

theorem GetFibonacci_never_returns {max : Int} (hmax : 2 ^ 63 - 1 ≤ max) (fuel : Nat) :
    GetFibonacci fuel max = .error .outOfFuel := by
  have h0 : max ≠ 0 := by
    intro h
    rw [h] at hmax
    norm_num at hmax
  have hw := fibWhile_never_exits hmax fuel [] 0 1 (by norm_num)
  simp only [List.nil_append] at hw
  simp only [GetFibonacci, if_neg h0, hw]

theorem main_never_returns {max : Int} (hmax : 2 ^ 63 - 1 ≤ max) (tf sf : Nat) :
    main tf sf max = .error .outOfFuel := by
  simp only [main, GetFibonacci_never_returns hmax tf]

/-- The loop of `GetFibonacci` only appends `int64_t` values, and appends at
least one when its condition holds at the start. -/
theorem fibWhile_prefix (max : Int) : ∀ (fuel : Nat) (ret r : List Int),
    fibWhile max fuel ret = .ok r →
      ∃ t, r = ret ++ t ∧ (∀ x ∈ t, -2 ^ 63 ≤ x ∧ x < 2 ^ 63) ∧
        ((∃ b, vecBack ret = .ok b ∧ b ≤ max) → t ≠ []) := by
  intro fuel
  induction fuel with
  | zero =>
    intro ret r h
    simp only [fibWhile] at h
    split at h
    · simp at h
    · rename_i back hback
      split at h
      · simp at h
      · rename_i hc
        refine ⟨[], by rw [← Except.ok.inj h]; simp, by simp, ?_⟩
        rintro ⟨b, hb1, hb2⟩
        rw [hback] at hb1
        have := Except.ok.inj hb1
        omega
  | succ fuel ih =>
    intro ret r h
    simp only [fibWhile] at h
    split at h
    · simp at h
    · rename_i back hback
      split at h
      · split at h
        · rename_i x y hx hy
          obtain ⟨t, ht, hrange, _⟩ := ih _ r h
          refine ⟨wrap64 (x + y) :: t, by rw [ht]; simp, ?_, by simp⟩
          intro z hz
          rcases List.mem_cons.mp hz with rfl | hz
          · exact ⟨le_wrap64 _, wrap64_lt _⟩
          · exact hrange z hz
        · simp at h
        · simp at h
      · rename_i hc
        refine ⟨[], by rw [← Except.ok.inj h]; simp, by simp, ?_⟩
        rintro ⟨b, hb1, hb2⟩
        rw [hback] at hb1
        have := Except.ok.inj hb1
        omega

/-- A table returned for a target `S ≥ 1` starts with `0, 1` and holds
`int64_t` values only. -/
theorem GetFibonacci_shape {S : Int} (hS : 1 ≤ S) {fuel : Nat} {F : List Int}
    (hF : GetFibonacci fuel S = .ok F) :
    ∃ u, F = 0 :: 1 :: u ∧ ∀ x ∈ F, -2 ^ 63 ≤ x ∧ x < 2 ^ 63 := by
  simp only [GetFibonacci, if_neg (show S ≠ 0 by omega)] at hF
  split at hF
  · simp at hF
  · rename_i ret hret
    obtain ⟨t, ht, hrange, hne⟩ := fibWhile_prefix S fuel [0, 1] ret hret
    have htne : t ≠ [] := hne ⟨1, rfl, hS⟩
    have hFe : F = [0, 1] ++ t.dropLast := by
      rw [← Except.ok.inj hF, ht, List.dropLast_append_of_ne_nil _ htne]
    refine ⟨t.dropLast, by rw [hFe]; rfl, ?_⟩
    intro x hx
    rw [hFe] at hx
    rcases List.mem_append.mp hx with h | h
    · simp at h
      rcases h with rfl | rfl <;> norm_num
    · exact hrange x (List.dropLast_subset t h)

theorem wrap64_zero : wrap64 0 = 0 := wrap64_eq (by norm_num) (by norm_num)

/-- At index 0 the inner loop never exits normally: it hits at `i = 0` or has
no fuel. -/
theorem innerLoop_index_zero_ne_none {S : Int} (hS : 0 ≤ S) (fuel : Nat) :
    innerLoop S 0 1 fuel 0 ≠ .ok none := by
  cases fuel with
  | zero => simp [innerLoop, wrap64_zero, hS]
  | succ f => simp [innerLoop, wrap64_zero, hS]

/-- On a table that starts with `0, 1` and a target `S ≥ 0` the search started
at an index `≥ 0` never ends in "No solution found", whatever the fuel. -/
theorem outerLoop_never_noSolution {S : Int} (hS : 0 ≤ S) (u : List Int) (fuel : Nat) :
    ∀ n, 1 ≤ n → outerLoop fuel S (0 :: 1 :: u) n ≠ .ok .noSolution := by
  intro n
  induction n with
  | zero => intro h; omega
  | succ n ih =>
    intro _ h
    by_cases hn : n = 0
    · subst hn
      have hpos : (0 : Int) < (u.length : Int) + 1 + 1 := by omega
      have h0 : vecAt (0 :: 1 :: u) ((0 : Nat) : Int) = .ok 0 := by simp [vecAt, hpos]
      have h1 : vecAt (0 :: 1 :: u) (((0 : Nat) : Int) + 1) = .ok 1 := by simp [vecAt]
      simp only [outerLoop, h0, h1] at h
      have hne := innerLoop_index_zero_ne_none hS fuel
      split at h
      · simp at h
      · simp at h
      · rename_i hnone
        exact hne hnone
    · simp only [outerLoop] at h
      split at h
      · split at h
        · simp at h
        · simp at h
        · exact ih (by omega) h
      · simp at h
      · simp at h

/-- For a target `S ≥ 0` the program never reports "No solution found",
whatever the fuel. -/
theorem main_ne_noSolution {S : Int} (hS : 0 ≤ S) (tf sf : Nat) :
    main tf sf S ≠ .ok .noSolution := by
  intro h
  by_cases h0 : S = 0
  · subst h0
    simp [main, GetFibonacci, vecBack] at h
  · have h1 : 1 ≤ S := by omega
    simp only [main] at h
    split at h
    · simp at h
    · rename_i F hF
      obtain ⟨u, rfl, _⟩ := GetFibonacci_shape h1 hF
      split at h
      · simp at h
      · split at h
        · simp at h
        · have hn : (((0 :: 1 :: u).length : Int) - 2 + 1).toNat = u.length + 1 := by
            simp only [List.length_cons]; push_cast; omega
          rw [generalSearch, hn] at h
          exact outerLoop_never_noSolution (by omega) u sf (u.length + 1) (by omega) h

theorem GetFibonacci_neg {max : Int} (h : max < 0) (fuel : Nat) :
    GetFibonacci fuel max = .ok [0] := by
  have hb : vecBack [0, 1] = .ok 1 := rfl
  have hw : fibWhile max fuel [0, 1] = .ok [0, 1] := by
    cases fuel <;> simp only [fibWhile, hb] <;> rw [if_neg (by omega)]
  simp only [GetFibonacci, if_neg (show max ≠ 0 by omega), hw]
  rfl

theorem main_special {tf sf : Nat} {S : Int} {F : List Int}
    (hF : GetFibonacci tf S = .ok F) (hlast : vecBack F = .ok S) :
    main tf sf S = .ok (.solution (F.length : Int) 1 0) := by
  simp only [main, hF, hlast, if_true]

/-! ## Properties of the program -/

/-- C1 (fails on the general search): on `target_sum = 4` the program reports
`days = 3`, first deposit 2, second deposit 0, and on `target_sum = 1000000`
it reports `days = 18`, deposits 154 and 144. In both cases
`a * fib (days - 1) + b * fib days` differs from the target: the deposits solve
the equation with `fib days` and `fib (days + 1)`, one index higher than the
relation of the header comment, which the special case does satisfy. -/
theorem C1_general_search_misses_relation :
    main 5 5 4 = .ok (.solution 3 2 0) ∧
      (2 : Int) * fib (3 - 1) + 0 * fib 3 ≠ 4 ∧
      (2 : Int) * fib 3 + 0 * fib (3 + 1) = 4 ∧
      main 1000001 1000001 1000000 = .ok (.solution 18 154 144) ∧
      (154 : Int) * fib (18 - 1) + 144 * fib 18 ≠ 1000000 ∧
      (154 : Int) * fib 18 + 144 * fib (18 + 1) = 1000000 := by
  refine ⟨by decide!, by decide!, by decide!, by decide!, by decide!, by decide!⟩

/-- C6: `GetFibonacci 0` is the one-element list `[0]` without any loop
iteration, its last element equals the target 0, and the program on
`target_sum = 0` reports `days = 1`, first deposit 1, second deposit 0 through
the exact-Fibonacci branch (no search fuel is used). -/
theorem C6_zero_boundary (tf sf : Nat) :
    GetFibonacci tf 0 = .ok [0] ∧ vecBack [0] = .ok 0 ∧
      main tf sf 0 = .ok (.solution 1 1 0) ∧ main 0 0 0 = .ok (.solution 1 1 0) := by
  have hF : ∀ t, GetFibonacci t 0 = .ok [0] := fun t => by simp [GetFibonacci]
  have hb : vecBack [0] = .ok 0 := rfl
  exact ⟨hF tf, hb, main_special (hF tf) hb, main_special (hF 0) hb⟩

/-- C11: for a target `S ≥ 1` that is the last element of its table `F`, the
general search run on its own reports `(|F| - 2, 0, 1)` with a single
execution of an inner-loop body (`i = 0` at the first index, where the top
table value `S` is the coefficient `fib2` of the second deposit, so first
deposit 1 against the top value is never tested), while `main` reports
`(|F|, 1, 0)` through the special case, with more days. This holds for every
such target, also where the table has wrapped around. -/
theorem C11_special_case_needed (S : Int) (hS : 1 ≤ S) (tf sf : Nat) (F : List Int)
    (hF : GetFibonacci tf S = .ok F) (hlast : vecBack F = .ok S) (hsf : 1 ≤ sf) :
    generalSearch sf S F = .ok (.solution ((F.length : Int) - 2) 0 1) ∧
      generalSearch 1 S F = .ok (.solution ((F.length : Int) - 2) 0 1) ∧
      vecAt F ((F.length : Int) - 2 + 1) = .ok S ∧
      main tf sf S = .ok (.solution (F.length : Int) 1 0) ∧
      (F.length : Int) - 2 < (F.length : Int) := by
  obtain ⟨u, rfl, hrange⟩ := GetFibonacci_shape hS hF
  have hget : (0 :: 1 :: u).getLast? = some S := by
    simp only [vecBack] at hlast
    split at hlast
    · rename_i x hx
      rw [hx, Except.ok.inj hlast]
    · simp at hlast
  have hmem : S ∈ (0 :: 1 :: u) := List.mem_of_getLast?_eq_some hget
  obtain ⟨hlo, hhi⟩ := hrange S hmem
  have hlen : ((0 :: 1 :: u).length : Int) - 2 = (u.length : Int) := by
    simp only [List.length_cons]; push_cast; ring
  have hidx : (0 :: 1 :: u)[u.length + 1]? = some S := by
    rw [List.getLast?_eq_getElem?] at hget
    simpa using hget
  have hr1 : (0 : Int) ≤ (u.length : Int) + 1 ∧
      (u.length : Int) + 1 < ((0 :: 1 :: u).length : Int) := by
    simp only [List.length_cons]; push_cast; constructor <;> omega
  have hv1 : vecAt (0 :: 1 :: u) ((u.length : Int) + 1) = .ok S := by
    have ht : ((u.length : Int) + 1).toNat = u.length + 1 := by omega
    simp only [vecAt, hr1, and_self, if_true, ht, hidx]
  have hlt : u.length < (0 :: 1 :: u).length := by
    simp only [List.length_cons]; omega
  have hr0 : (0 : Int) ≤ (u.length : Int) ∧
      (u.length : Int) < ((0 :: 1 :: u).length : Int) := by
    simp only [List.length_cons]; push_cast; constructor <;> omega
  have hv0 : vecAt (0 :: 1 :: u) (u.length : Int) = .ok ((0 :: 1 :: u)[u.length]) := by
    simp only [vecAt, hr0, and_self, if_true, Int.toNat_ofNat, List.getElem?_eq_getElem hlt]
  have hn : (((0 :: 1 :: u).length : Int) - 2 + 1).toNat = u.length + 1 := by
    simp only [List.length_cons]; push_cast; omega
  have hS0 : S ≠ 0 := by omega
  have hwS : wrap64 S = S := wrap64_eq hlo hhi
  have hno : ¬ (S = -1 ∧ S = -2 ^ 63) := by
    intro h
    omega
  have hsearch : ∀ f, generalSearch (f + 1) S (0 :: 1 :: u) =
      .ok (.solution (u.length : Int) 0 1) := by
    intro f
    rw [generalSearch, hn]
    simp only [outerLoop, hv0, hv1, innerLoop, zero_mul, wrap64_zero, sub_zero, hwS,
      if_pos (show (0 : Int) ≤ S by omega), if_neg hS0, if_neg hno, Int.tmod_self, if_true,
      Int.tdiv_self hS0]
  obtain ⟨f, rfl⟩ : ∃ f, sf = f + 1 := ⟨sf - 1, by omega⟩
  rw [hlen]
  exact ⟨hsearch f, hsearch 0, hv1, main_special hF hlast, by
    simp only [List.length_cons]; push_cast; omega⟩

/-- C12: for every target `1 ≤ S < 2^62` and whatever the fuel, the program
run with every arithmetic result checked against `[0, 2 * S]` (table entries
including the overshooting one, products `i*fib1`, remainders
`S - i*fib1`, quotients and increments of `i`) never leaves that range and
behaves as the program; `[0, 2 * S]` lies inside the signed 64-bit range, so
the run checked against `[-2^63, 2^63 - 1]` also equals the program, with
`S + 1` units of fuel per loop it reports a solution, and the `int64_t`
program equals the program over unbounded integers. -/
theorem C12_no_overflow (S : Int) (h1 : 1 ≤ S) (h2 : S < 2 ^ 62) (tf sf : Nat) :
    mainChecked 0 (2 * S) tf sf S = liftFault (main tf sf S) ∧
      (-2 ^ 63 ≤ (0 : Int) ∧ 2 * S ≤ 2 ^ 63 - 1) ∧
      mainChecked (-2 ^ 63) (2 ^ 63 - 1) tf sf S = liftFault (main tf sf S) ∧
      (S.toNat + 1 ≤ tf → S.toNat + 1 ≤ sf →
        ∃ days i j : Int,
          mainChecked (-2 ^ 63) (2 ^ 63 - 1) tf sf S = .ok (.solution days i j)) ∧
      main tf sf S = mainZ tf sf S ∧
      mainChecked 0 (2 * S) tf sf S = liftFault (mainZ tf sf S) := by
  have hr : 2 * S ≤ 2 ^ 63 - 1 := by
    have : (2 : Int) ^ 63 = 2 * 2 ^ 62 := by norm_num
    omega
  have hl : -2 ^ 63 ≤ (0 : Int) := by norm_num
  have hS0 : 0 ≤ S := by omega
  have hZ : main tf sf S = mainZ tf sf S := main_eq_Z hS0 (by omega) tf sf
  have h64 := @mainChecked_eq (-2 ^ 63) (2 ^ 63 - 1) S hl hr h1 tf sf
  have h2S := @mainChecked_eq 0 (2 * S) S (le_refl 0) (le_refl _) h1 tf sf
  refine ⟨by rw [hZ]; exact h2S, ⟨hl, hr⟩, by rw [hZ]; exact h64, ?_, hZ, h2S⟩
  intro htf hsf
  have hF := GetFibonacciZ_ok hS0 htf
  rw [h64]
  by_cases hlast : vecBack (fibTable (topIndex S)) = .ok S
  · exact ⟨_, 1, 0, by rw [mainZ_special hF hlast]; rfl⟩
  · obtain ⟨_, _, _, _, hmain⟩ := mainZ_general sf hS0 hF hlast
    obtain ⟨d, i, j, hout, _⟩ :=
      outerLoopZ_spec hS0 hsf (m := topIndex S) (topIndex S) (by omega) (le_refl _)
    exact ⟨d, i, j, by rw [hmain, hout]; rfl⟩

/-- C17: a negative target is not rejected: for every `S < 0` the table is
`[0]` without any loop iteration, its last element 0 differs from `S` so the
special case does not fire, the outer loop starts at `index = |F| - 2 = -1`
and runs no iteration, and the program reports "No solution found", whatever
the fuel. Conversely the program reports "No solution found" only for
`S < 0`. -/
theorem C17_negative_target (S : Int) (tf sf : Nat) :
    (S < 0 →
      GetFibonacci tf S = .ok [0] ∧ vecBack [0] = .ok 0 ∧ (0 : Int) ≠ S ∧
      (([0] : List Int).length : Int) - 2 = -1 ∧
      generalSearch sf S [0] = outerLoop sf S [0] 0 ∧
      generalSearch 0 S [0] = .ok .noSolution ∧
      main tf sf S = .ok .noSolution) ∧
    (main tf sf S = .ok .noSolution ↔ S < 0) := by
  have hneg : S < 0 →
      GetFibonacci tf S = .ok [0] ∧ vecBack [0] = .ok 0 ∧ (0 : Int) ≠ S ∧
      (([0] : List Int).length : Int) - 2 = -1 ∧
      generalSearch sf S [0] = outerLoop sf S [0] 0 ∧
      generalSearch 0 S [0] = .ok .noSolution ∧
      main tf sf S = .ok .noSolution := by
    intro h
    have hF := GetFibonacci_neg h tf
    have hb : vecBack [0] = .ok 0 := rfl
    refine ⟨hF, hb, by omega, by decide, rfl, rfl, ?_⟩
    simp only [main, hF, hb, if_neg (show (0 : Int) ≠ S by omega)]
    rfl
  refine ⟨hneg, ?_, fun h => (hneg h).2.2.2.2.2.2⟩
  intro hno
  by_contra hge
  exact main_ne_noSolution (by omega) tf sf hno

/-! ## Properties that hold below `fib 92 = 7540113804746346429`

From `fib 92` on the table construction overflows `int64_t` and the
properties of this section fail; below it they hold. -/

/-- C2 (amended): when the general search runs on a target
`0 ≤ S < fib 92 = 7540113804746346429` (the table `F` does not end in `S`) it
reports a triple `(days, i, j)`, and at every index above `days` and up to
`|F| - 2` the entries `F[index']`, `F[index' + 1]` admit no pair of
non-negative deposits `i'`, `j'` with `i' * F[index'] + j' * F[index' + 1] = S`. -/
theorem C2_general_search_maximal (S : Int) (hS : 0 ≤ S) (hb : S < 7540113804746346429)
    (tf sf : Nat) (F : List Int)
    (hF : GetFibonacci tf S = .ok F) (hgen : vecBack F ≠ .ok S) (hsf : S.toNat + 1 ≤ sf) :
    ∃ days i j : Int, main tf sf S = .ok (.solution days i j) ∧
      ∀ index' : Int, days < index' → index' ≤ (F.length : Int) - 2 →
        ∃ x y, vecAt F index' = .ok x ∧ vecAt F (index' + 1) = .ok y ∧
          ∀ i' j' : Int, 0 ≤ i' → 0 ≤ j' → i' * x + j' * y ≠ S := by
  rw [GetFibonacci_eq_Z hS hb] at hF
  rw [main_eq_Z hS hb]
  exact unbounded_general_search_maximal S hS tf sf F hF hgen hsf

/-- C3 (amended): for a target `0 ≤ S < fib 92 = 7540113804746346429`, `S` is a
Fibonacci number exactly when it is the last element of its table `F`; in that
case the program reports `days = |F|`, first deposit 1, second deposit 0
whatever the search fuel, even none, so no iteration of the general search is
executed; when `S` is not the last element the program without search fuel
stops in the general search. -/
theorem C3_exact_fibonacci_special_case (S : Int) (hS : 0 ≤ S)
    (hb : S < 7540113804746346429) (tf : Nat) (htf : S.toNat + 1 ≤ tf) :
    ∃ F, GetFibonacci tf S = .ok F ∧
      ((∃ k, S = fib k) ↔ vecBack F = .ok S) ∧
      (vecBack F = .ok S → ∀ sf, main tf sf S = .ok (.solution (F.length : Int) 1 0)) ∧
      (vecBack F ≠ .ok S → main tf 0 S = .error .outOfFuel) := by
  simp only [GetFibonacci_eq_Z hS hb, main_eq_Z hS hb]
  exact unbounded_exact_fibonacci_special_case S hS tf htf

/-- C4 (amended): for every target `0 ≤ S < fib 92 = 7540113804746346429` and
enough fuel the program reports a solution and not "No solution found"; and
whenever the general search runs, index 0 is in its range, the table has
`F[0] = 0` and `F[1] = 1`, the first test of the inner loop there succeeds
with `i = 0`, `j = S`, and the search started at index 0 reports
`(0, 0, S)`. -/
theorem C4_solution_always_reported (S : Int) (hS : 0 ≤ S) (hb : S < 7540113804746346429)
    (tf sf : Nat) (htf : S.toNat + 1 ≤ tf) (hsf : S.toNat + 1 ≤ sf) :
    (∃ days i j : Int, main tf sf S = .ok (.solution days i j)) ∧
      main tf sf S ≠ .ok .noSolution ∧
      ∃ F, GetFibonacci tf S = .ok F ∧
        (vecBack F ≠ .ok S →
          0 ≤ (F.length : Int) - 2 ∧ vecAt F 0 = .ok 0 ∧ vecAt F (0 + 1) = .ok 1 ∧
            innerLoop S 0 1 sf 0 = .ok (some (0, S)) ∧
            outerLoop sf S F 1 = .ok (.solution 0 0 S)) := by
  obtain ⟨hsol, hne, F, hF, himp⟩ := unbounded_solution_always_reported S hS tf sf htf hsf
  have hFe := GetFibonacciZ_inv hS hF
  subst hFe
  rw [main_eq_Z hS hb, GetFibonacci_eq_Z hS hb]
  refine ⟨hsol, hne, _, hF, ?_⟩
  intro hgen
  obtain ⟨h1, h2, h3, h4, h5⟩ := himp hgen
  obtain ⟨_, _, _, htop, _⟩ := mainZ_general sf hS hF hgen
  refine ⟨h1, h2, h3, ?_, ?_⟩
  · rw [innerLoop_index_zero_eq_Z hS (by omega) sf]
    exact h4
  · rw [outerLoop_eq_Z hS hb sf (fib_topIndex_le hS) 1 (by omega)]
    exact h5

/-- C5 (amended): for every `1 ≤ max < fib 92 = 7540113804746346429` and
enough fuel, `GetFibonacci max` is the list `[fib 0, fib 1, ..., fib n]` where
`n` is the largest index with `fib n ≤ max`: its last element `fib n` is at
most `max`, the next Fibonacci number `fib (n + 1)` exceeds `max` and is not
in the list. -/
theorem C5_table_contents (max : Int) (hmax : 1 ≤ max) (hb : max < 7540113804746346429)
    (fuel : Nat) (hfuel : max.toNat + 1 ≤ fuel) :
    ∃ n, GetFibonacci fuel max = .ok ((List.range (n + 1)).map fib) ∧
      ((List.range (n + 1)).map fib).getLast? = some (fib n) ∧
      fib n ≤ max ∧ max < fib (n + 1) ∧ (∀ m, fib m ≤ max → m ≤ n) ∧
      fib (n + 1) ∉ (List.range (n + 1)).map fib := by
  rw [GetFibonacci_eq_Z (by omega) hb]
  exact unbounded_table_contents max hmax fuel hfuel

/-- C7 (amended): when the general search runs on a target
`0 ≤ S < fib 92 = 7540113804746346429` it reports `(days, i, j)` with
non-negative deposits that solve `i * F[days] + j * F[days + 1] = S`, and no
smaller first deposit `0 ≤ i' < i` admits a non-negative second deposit `j'`
with `i' * F[days] + j' * F[days + 1] = S`: `i` is the least first deposit of
a solution at that index. -/
theorem C7_minimal_first_deposit (S : Int) (hS : 0 ≤ S) (hb : S < 7540113804746346429)
    (tf sf : Nat) (F : List Int)
    (hF : GetFibonacci tf S = .ok F) (hgen : vecBack F ≠ .ok S) (hsf : S.toNat + 1 ≤ sf) :
    ∃ days i j : Int, main tf sf S = .ok (.solution days i j) ∧ 0 ≤ i ∧ 0 ≤ j ∧
      ∃ x y, vecAt F days = .ok x ∧ vecAt F (days + 1) = .ok y ∧ i * x + j * y = S ∧
        ∀ i' j' : Int, 0 ≤ i' → i' < i → 0 ≤ j' → i' * x + j' * y ≠ S := by
  rw [GetFibonacci_eq_Z hS hb] at hF
  rw [main_eq_Z hS hb]
  obtain ⟨hFe, _, _, h2, hmain⟩ := mainZ_general sf hS hF hgen
  obtain ⟨d, i, j, hout, hd, hi, hj, heq, hmin, _⟩ :=
    outerLoopZ_spec hS hsf (m := topIndex S) (topIndex S) (by omega) (le_refl _)
  subst hFe
  refine ⟨d, i, j, by rw [hmain, hout], hi, hj, fib d, fib (d + 1), vecAt_fibTable (by omega),
    vecAt_fibTable_succ (by omega), heq, ?_⟩
  intro i' j' hi' hlt _
  exact hmin i' j' hi' hlt

/-- Below the first overflow: for a target `1 ≤ S < fib 92 = 7540113804746346429`
that is the last element of its table `F`, the program reports `days = |F|`
with deposits `(1, 0)`, these satisfy `1 * fib (|F| - 1) + 0 * fib |F| = S`,
and for every `n > |F|` no non-negative integers `a`, `b` satisfy
`a * fib (n - 1) + b * fib n = S`. From `fib 92` on the table wraps around, and
whether a target can then be the last element of its own table is left open
here. -/
theorem special_case_deepest_below_fib92 (S : Int) (hS : 1 ≤ S) (hb : S < 7540113804746346429)
    (tf sf : Nat) (F : List Int)
    (hF : GetFibonacci tf S = .ok F) (hlast : vecBack F = .ok S) :
    main tf sf S = .ok (.solution (F.length : Int) 1 0) ∧
      1 * fib (F.length - 1) + 0 * fib F.length = S ∧
      ∀ n, F.length < n → ∀ a b : Int, 0 ≤ a → 0 ≤ b → a * fib (n - 1) + b * fib n ≠ S := by
  rw [GetFibonacci_eq_Z (by omega) hb] at hF
  rw [main_eq_Z (by omega) hb]
  exact unbounded_special_case_deepest S hS tf sf F hF hlast

/-- C9 (amended): for every target `0 ≤ S < fib 92 = 7540113804746346429` the
table construction and the whole program return a result once each loop has
`S + 1` units of fuel; the `while` loop of `GetFibonacci` exits with a last
element above `S`; each inner loop of the search with `fib1 ≥ 1` (every index
from 1 to `|F| - 2`) finishes within `⌊S / fib1⌋ + 1` executions of its body;
and at index 0 (`fib1 = 0`, `fib2 = 1`) the inner loop finishes with exactly
one execution of its body, the hit `i = 0`, `j = S`. -/
theorem C9_termination (S : Int) (hS : 0 ≤ S) (hb : S < 7540113804746346429) :
    (∀ tf sf, S.toNat + 1 ≤ tf → S.toNat + 1 ≤ sf →
      (∃ F, GetFibonacci tf S = .ok F) ∧ ∃ out, main tf sf S = .ok out) ∧
    (∀ tf, S.toNat + 1 ≤ tf →
      ∃ ret back, fibWhile S tf [0, 1] = .ok ret ∧ vecBack ret = .ok back ∧ S < back) ∧
    (∀ tf F, GetFibonacci tf S = .ok F →
      ∀ index : Int, 1 ≤ index → index ≤ (F.length : Int) - 2 →
        ∃ fib1 fib2 r, vecAt F index = .ok fib1 ∧ vecAt F (index + 1) = .ok fib2 ∧
          1 ≤ fib1 ∧ innerLoop S fib1 fib2 ((S / fib1).toNat + 1) 0 = .ok r) ∧
    innerLoop S 0 1 1 0 = .ok (some (0, S)) ∧
    innerLoop S 0 1 0 0 = .error .outOfFuel := by
  obtain ⟨h1, h2, h3, h4, h5⟩ := unbounded_termination S hS
  have hS63 : S < 2 ^ 63 := by omega
  have htop := fib_topIndex_le hS
  have h91 := index_lt_of_fib_le hb htop
  refine ⟨?_, ?_, ?_, ?_, ?_⟩
  · intro tf sf htf hsf
    rw [GetFibonacci_eq_Z hS hb, main_eq_Z hS hb]
    exact h1 tf sf htf hsf
  · intro tf htf
    have hbound : fib (topIndex S + 1) < 2 ^ 63 := by
      have h3 : fib (topIndex S + 1) ≤ fib 92 := fib_mono (by omega)
      rw [fib_92] at h3
      omega
    have hw := fibWhile_eq_Z S (topIndex S) hbound htop (lt_fib_topIndex_succ hS) tf 1
      (le_refl 1) (by omega)
    have ht : fibTable 1 = [0, 1] := by decide
    rw [ht] at hw
    rw [hw]
    exact h2 tf htf
  · intro tf F hF index hi1 hi2
    have hFe := GetFibonacci_inv hS hb hF
    subst hFe
    rw [fibTable_length] at hi2
    push_cast at hi2
    obtain ⟨k, rfl⟩ := Int.eq_ofNat_of_zero_le (show 0 ≤ index by omega)
    have hk1 : 1 ≤ k := by omega
    have hk2 : k + 1 ≤ topIndex S := by omega
    have hf1 : 1 ≤ fib k := fib_pos hk1
    have hf2 : fib (k + 1) ≠ 0 := by
      have := fib_pos (show 1 ≤ k + 1 by omega)
      omega
    obtain ⟨r, hr⟩ := h3 (fib k) (fib (k + 1)) hf1 hf2
    refine ⟨fib k, fib (k + 1), r, vecAt_fibTable (by omega), vecAt_fibTable_succ hk2, hf1, ?_⟩
    rw [innerLoop_fib_eq_Z hS hb htop hk2]
    exact hr
  · rw [innerLoop_index_zero_eq_Z hS hS63]
    exact h4
  · rw [innerLoop_index_zero_eq_Z hS hS63]
    exact h5

/-- C10 (amended): for every target `0 ≤ S < fib 92 = 7540113804746346429` and
whatever the fuel, the program never reads `back()` of an empty table, never
indexes outside the table and never divides by zero (its only possible fault
is running out of fuel); the table is not empty, and at every index
`0 ≤ index ≤ |F| - 2` of the general search both `F[index]` and
`F[index + 1]` are valid with `fib2 = F[index + 1] ≥ 1`. -/
theorem C10_division_safety (S : Int) (hS : 0 ≤ S) (hb : S < 7540113804746346429)
    (tf sf : Nat) :
    (∀ e, main tf sf S = .error e → e = .outOfFuel) ∧
    (∀ e, GetFibonacci tf S = .error e → e = .outOfFuel) ∧
    ∀ F, GetFibonacci tf S = .ok F →
      F ≠ [] ∧ (∃ back, vecBack F = .ok back) ∧
      ∀ index : Int, 0 ≤ index → index ≤ (F.length : Int) - 2 →
        ∃ fib1 fib2, vecAt F index = .ok fib1 ∧ vecAt F (index + 1) = .ok fib2 ∧ 1 ≤ fib2 := by
  rw [main_eq_Z hS hb, GetFibonacci_eq_Z hS hb]
  exact unbounded_division_safety S hS tf sf

/-- C13 (amended): for every `0 ≤ max < fib 92 = 7540113804746346429` and
enough fuel, `GetFibonacci max` returns a list that is not empty and
non-decreasing (each element is at most the next one, and at most every later
one), and the list returned does not depend on the fuel: `GetFibonacci` is a
function of `max` alone. -/
theorem C13_table_nondecreasing (max : Int) (hmax : 0 ≤ max)
    (hb : max < 7540113804746346429) (fuel : Nat) (hfuel : max.toNat + 1 ≤ fuel) :
    ∃ F, GetFibonacci fuel max = .ok F ∧ F ≠ [] ∧
      (∀ (k : Nat) (x y : Int), F[k]? = some x → F[k + 1]? = some y → x ≤ y) ∧
      F.Pairwise (· ≤ ·) ∧
      ∀ fuel' F', GetFibonacci fuel' max = .ok F' → F' = F := by
  simp only [GetFibonacci_eq_Z hmax hb]
  exact unbounded_table_nondecreasing max hmax fuel hfuel

/-- C14 (amended): for every target `0 ≤ S < fib 92 = 7540113804746346429`
that is no Fibonacci number the program reports a triple `(days, i, j)` with
`i ≥ 0`, `j ≥ 0` and `i * fib days + j * fib (days + 1) = S`: the coefficients
are the table entries at positions `days` and `days + 1`. -/
theorem C14_general_search_relation (S : Int) (hS : 0 ≤ S) (hb : S < 7540113804746346429)
    (hnf : ∀ k, S ≠ fib k) (tf sf : Nat) (htf : S.toNat + 1 ≤ tf) (hsf : S.toNat + 1 ≤ sf) :
    ∃ (days : Nat) (i j : Int) (F : List Int),
      main tf sf S = .ok (.solution (days : Int) i j) ∧ 0 ≤ i ∧ 0 ≤ j ∧
      i * fib days + j * fib (days + 1) = S ∧
      GetFibonacci tf S = .ok F ∧ vecAt F (days : Int) = .ok (fib days) ∧
      vecAt F ((days : Int) + 1) = .ok (fib (days + 1)) := by
  simp only [GetFibonacci_eq_Z hS hb, main_eq_Z hS hb]
  exact unbounded_general_search_relation S hS hnf tf sf htf hsf

/-- C15 (amended): for every target `1 ≤ S < fib 92 = 7540113804746346429`
that is no Fibonacci number, the reported `days` is the largest natural number
`n`, over all `n` and not only those of the table, for which non-negative
integers `i`, `j` with `i * fib n + j * fib (n + 1) = S` exist. -/
theorem C15_global_maximality (S : Int) (hS : 1 ≤ S) (hb : S < 7540113804746346429)
    (hnf : ∀ k, S ≠ fib k) (tf sf : Nat) (htf : S.toNat + 1 ≤ tf) (hsf : S.toNat + 1 ≤ sf) :
    ∃ (days : Nat) (i j : Int),
      main tf sf S = .ok (.solution (days : Int) i j) ∧
      (0 ≤ i ∧ 0 ≤ j ∧ i * fib days + j * fib (days + 1) = S) ∧
      ∀ n : Nat, days < n → ∀ i' j' : Int, 0 ≤ i' → 0 ≤ j' →
        i' * fib n + j' * fib (n + 1) ≠ S := by
  rw [main_eq_Z (by omega) hb]
  exact unbounded_global_maximality S hS hnf tf sf htf hsf

/-- C16 (amended): for a target `0 ≤ S < fib 92 = 7540113804746346429` that is
no Fibonacci number, `S ≥ 4`, the equation `2 * i + 3 * j = S` of index 3
(`fib 3 = 2`, `fib 4 = 3`) has a non-negative solution, and the program
reports `days ≥ 3`; for a Fibonacci target the program reports
`days = |F| ≥ 1`. In neither case is `days = 0` reported. -/
theorem C16_fallback_never_reported (S : Int) (hS : 0 ≤ S) (hb : S < 7540113804746346429)
    (tf sf : Nat) (htf : S.toNat + 1 ≤ tf) (hsf : S.toNat + 1 ≤ sf) :
    ((∀ k, S ≠ fib k) →
      4 ≤ S ∧ fib 3 = 2 ∧ fib 4 = 3 ∧
      (∃ i' j' : Int, 0 ≤ i' ∧ 0 ≤ j' ∧ 2 * i' + 3 * j' = S) ∧
      ∃ days i j : Int, main tf sf S = .ok (.solution days i j) ∧ 3 ≤ days) ∧
    ((∃ k, S = fib k) →
      ∃ F, GetFibonacci tf S = .ok F ∧
        main tf sf S = .ok (.solution (F.length : Int) 1 0) ∧ 1 ≤ (F.length : Int)) ∧
    ∃ days i j : Int, main tf sf S = .ok (.solution days i j) ∧ days ≠ 0 := by
  simp only [GetFibonacci_eq_Z hS hb, main_eq_Z hS hb]
  exact unbounded_fallback_never_reported S hS tf sf htf hsf

/-! ## Where the properties fail: targets from `fib 92` on

On `target_sum = fib 92 = 7540113804746346429` the sum `fib 91 + fib 92`
overflows `int64_t`: the table goes on with wrapped values up to 118 entries,
the special case does not fire and the search reports `(94, 2, -1)`. On
`target_sum = 7963007762452793327`, a wrapped table entry, the table has 127
entries and the program reports `(118, 1, 0)`. On `target_sum = 2^63 - 1` the
loop of `GetFibonacci` never exits. -/

theorem fib_118 : fib 118 = 2046711111473984623691759 := by
  rw [fib_eq_natFib]; norm_num

theorem fib_119 : fib 119 = 3311648143516982017180081 := by
  rw [fib_eq_natFib]; norm_num

/-- A target strictly between `fib 92` and `fib 93` is no Fibonacci number. -/
theorem not_fib_of_between {S : Int} (h1 : 7540113804746346429 < S)
    (h2 : S < 12200160415121876738) : ∀ k, S ≠ fib k := by
  intro k hk
  by_cases h : k ≤ 92
  · have := fib_mono h
    rw [fib_92] at this
    omega
  · have := fib_mono (show 93 ≤ k by omega)
    rw [fib_93] at this
    omega

/-- The table of the program on `target_sum = fib 92`, by evaluation. -/
theorem GetFibonacci_at_fib92 : GetFibonacci 200 7540113804746346429 = .ok tableAtFib92 := by
  decide!

/-- The report of the program on `target_sum = fib 92`, by evaluation. -/
theorem main_at_fib92 : main 200 200 7540113804746346429 = .ok (.solution 94 2 (-1)) := by
  decide!

/-- The report of the program on `target_sum = 7963007762452793327`, by
evaluation. -/
theorem main_at_wrapped_entry : main 200 200 7963007762452793327 = .ok (.solution 118 1 0) := by
  decide!

/-- C2 fails at `target_sum = fib 92`: the general search reports
`(94, 2, -1)` on the 118-entry table, and at index 103, above 94 and within
`|F| - 2 = 116`, the entries admit the non-negative deposits
`597674946750562638` and `534949546931952811`. -/
theorem C2_general_search_maximal_counterexample :
    ∃ F : List Int, GetFibonacci 200 7540113804746346429 = .ok F ∧
      vecBack F ≠ .ok 7540113804746346429 ∧
      main 200 200 7540113804746346429 = .ok (.solution 94 2 (-1)) ∧
      ((94 : Int) < 103 ∧ (103 : Int) ≤ (F.length : Int) - 2) ∧
      vecAt F 103 = .ok 6334266236422402381 ∧
      vecAt F (103 + 1) = .ok (-7076989329685730859) ∧
      ((0 : Int) ≤ 597674946750562638 ∧ (0 : Int) ≤ 534949546931952811) ∧
      (597674946750562638 : Int) * 6334266236422402381 +
        534949546931952811 * (-7076989329685730859) = 7540113804746346429 :=
  ⟨tableAtFib92, GetFibonacci_at_fib92, by decide!, main_at_fib92, by decide!, by decide!,
    by decide!, by norm_num, by norm_num⟩

/-- C3 fails at `target_sum = fib 92`: the target is a Fibonacci number but
not the last element of its 118-entry table, and the program reports
`(94, 2, -1)` instead of `(|F|, 1, 0)`. -/
theorem C3_exact_fibonacci_special_case_counterexample :
    ∃ F : List Int, GetFibonacci 200 7540113804746346429 = .ok F ∧
      (∃ k, (7540113804746346429 : Int) = fib k) ∧
      vecBack F ≠ .ok 7540113804746346429 ∧ F.length = 118 ∧
      main 200 200 7540113804746346429 = .ok (.solution 94 2 (-1)) ∧
      main 200 200 7540113804746346429 ≠ .ok (.solution (F.length : Int) 1 0) :=
  ⟨tableAtFib92, GetFibonacci_at_fib92, ⟨92, fib_92.symm⟩, by decide!, by decide!,
    main_at_fib92, by rw [main_at_fib92]; decide!⟩

/-- C4 fails at `target_sum = 2^63 - 1`: whatever the fuel the program returns
no outcome, the loop of `GetFibonacci` never exits. -/
theorem C4_solution_always_reported_counterexample :
    ¬ ∃ (tf sf : Nat) (out : Outcome), main tf sf (2 ^ 63 - 1) = .ok out := by
  rintro ⟨tf, sf, out, h⟩
  rw [main_never_returns (le_refl _)] at h
  simp at h

/-- C5 fails at `max = fib 92`: the table has 118 entries, the entry at
position 93 is negative, and the table is no list `[fib 0, ..., fib n]`. -/
theorem C5_table_contents_counterexample :
    ∃ F : List Int, GetFibonacci 200 7540113804746346429 = .ok F ∧
      F.length = 118 ∧ F[93]? = some (-6246583658587674878) ∧
      ¬ ∃ n, F = (List.range (n + 1)).map fib := by
  have hlen : tableAtFib92.length = 118 := by decide!
  have h93 : tableAtFib92[93]? = some (-6246583658587674878) := by decide!
  refine ⟨tableAtFib92, GetFibonacci_at_fib92, hlen, h93, ?_⟩
  rintro ⟨n, hn⟩
  have hn' : tableAtFib92 = fibTable n := hn
  rw [hn', fibTable_length] at hlen
  rw [hn', fibTable_getElem? (show 93 ≤ n by omega)] at h93
  have := fib_nonneg 93
  have := Option.some.inj h93
  omega

/-- C7 fails at `target_sum = fib 92`: the general search reports
`(94, 2, -1)`; the reported first deposit 2 solves the equation at index 94
with the second deposit `-1` only, with no non-negative one, so it is not the
first deposit of a solution. -/
theorem C7_minimal_first_deposit_counterexample :
    ∃ F : List Int, GetFibonacci 200 7540113804746346429 = .ok F ∧
      vecBack F ≠ .ok 7540113804746346429 ∧
      main 200 200 7540113804746346429 = .ok (.solution 94 2 (-1)) ∧
      vecAt F 94 = .ok 1293530146158671551 ∧
      vecAt F (94 + 1) = .ok (-4953053512429003327) ∧
      (2 : Int) * 1293530146158671551 + (-1) * (-4953053512429003327) = 7540113804746346429 ∧
      ∀ j' : Int, 0 ≤ j' →
        2 * 1293530146158671551 + j' * (-4953053512429003327) ≠ 7540113804746346429 :=
  ⟨tableAtFib92, GetFibonacci_at_fib92, by decide!, main_at_fib92, by decide!, by decide!,
    by norm_num, fun j' hj h => by omega⟩

/-- C9 fails at `target_sum = 2^63 - 1`: whatever the fuel, the table
construction returns no table. -/
theorem C9_termination_counterexample :
    ¬ ∃ (fuel : Nat) (F : List Int), GetFibonacci fuel (2 ^ 63 - 1) = .ok F := by
  rintro ⟨fuel, F, h⟩
  rw [GetFibonacci_never_returns (le_refl _)] at h
  simp at h

/-- C10 fails at `target_sum = fib 92`: the search executes the iteration at
index 94, within `[0, |F| - 2]`, where `fib2 = F[95]` is negative. -/
theorem C10_division_safety_counterexample :
    ∃ F : List Int, GetFibonacci 200 7540113804746346429 = .ok F ∧
      main 200 200 7540113804746346429 = .ok (.solution 94 2 (-1)) ∧
      ((0 : Int) ≤ 94 ∧ (94 : Int) ≤ (F.length : Int) - 2) ∧
      vecAt F (94 + 1) = .ok (-4953053512429003327) ∧
      ¬ ((1 : Int) ≤ -4953053512429003327) :=
  ⟨tableAtFib92, GetFibonacci_at_fib92, main_at_fib92, by decide!, by decide!, by norm_num⟩

/-- C13 fails at `max = fib 92`: the table holds `fib 92` at position 92
followed by a negative entry at position 93. -/
theorem C13_table_nondecreasing_counterexample :
    ∃ F : List Int, GetFibonacci 200 7540113804746346429 = .ok F ∧
      F[92]? = some 7540113804746346429 ∧ F[92 + 1]? = some (-6246583658587674878) ∧
      ¬ ((7540113804746346429 : Int) ≤ -6246583658587674878) :=
  ⟨tableAtFib92, GetFibonacci_at_fib92, by decide!, by decide!, by norm_num⟩

/-- C14 fails at `target_sum = 7963007762452793327`, no Fibonacci number: the
program reports `(118, 1, 0)` and `1 * fib 118 + 0 * fib 119` is not the
target. -/
theorem C14_general_search_relation_counterexample :
    main 200 200 7963007762452793327 = .ok (.solution 118 1 0) ∧
      (∀ k, (7963007762452793327 : Int) ≠ fib k) ∧
      (1 : Int) * fib 118 + 0 * fib (118 + 1) ≠ 7963007762452793327 := by
  refine ⟨main_at_wrapped_entry, not_fib_of_between (by norm_num) (by norm_num), ?_⟩
  rw [fib_118, fib_119]
  norm_num

/-- C15 fails at `target_sum = 7963007762452793327`, no Fibonacci number: the
program reports `days = 118`, an index that admits no non-negative deposits at
all, while index 0 does. -/
theorem C15_global_maximality_counterexample :
    main 200 200 7963007762452793327 = .ok (.solution 118 1 0) ∧
      (∀ k, (7963007762452793327 : Int) ≠ fib k) ∧
      (∀ i j : Int, 0 ≤ i → 0 ≤ j → i * fib 118 + j * fib (118 + 1) ≠ 7963007762452793327) ∧
      (0 : Int) * fib 0 + 7963007762452793327 * fib (0 + 1) = 7963007762452793327 := by
  refine ⟨main_at_wrapped_entry, not_fib_of_between (by norm_num) (by norm_num), ?_, ?_⟩
  · intro i j hi hj h
    have h118 : (7963007762452793327 : Int) < fib 118 := by rw [fib_118]; norm_num
    have h119 : (7963007762452793327 : Int) < fib (118 + 1) := by rw [fib_119]; norm_num
    have hpi : 0 ≤ i * fib 118 := mul_nonneg hi (fib_nonneg _)
    have hpj : 0 ≤ j * fib (118 + 1) := mul_nonneg hj (fib_nonneg _)
    by_cases hi0 : i = 0
    · by_cases hj0 : j = 0
      · rw [hi0, hj0] at h
        norm_num at h
      · have : fib (118 + 1) ≤ j * fib (118 + 1) :=
          le_mul_of_one_le_left (fib_nonneg _) (by omega)
        linarith
    · have : fib 118 ≤ i * fib 118 := le_mul_of_one_le_left (fib_nonneg _) (by omega)
      linarith
  · have h0 : fib 0 = 0 := rfl
    have h1 : fib (0 + 1) = 1 := rfl
    rw [h0, h1]
    norm_num

/-- C16 fails at `target_sum = fib 92`, a Fibonacci number: the program
reports `days = 94` while the table has 118 entries. -/
theorem C16_fallback_never_reported_counterexample :
    ∃ F : List Int, GetFibonacci 200 7540113804746346429 = .ok F ∧
      (∃ k, (7540113804746346429 : Int) = fib k) ∧
      main 200 200 7540113804746346429 = .ok (.solution 94 2 (-1)) ∧
      F.length = 118 ∧ (94 : Int) ≠ (F.length : Int) :=
  ⟨tableAtFib92, GetFibonacci_at_fib92, ⟨92, fib_92.symm⟩, main_at_fib92, by decide!,
    by decide!⟩

/-! ## The properties at concrete targets -/

/-- C2 (amended) at `target_sum = 7`: the table is `[0, 1, 1, 2, 3, 5]`, the
search reports `(3, 2, 1)` and index 4 (entries 3 and 5) admits no deposits. -/
theorem C2_general_search_maximal_witness :
    main 8 8 7 = .ok (.solution 3 2 1) ∧
      ∃ days i j : Int, main 8 8 7 = .ok (.solution days i j) ∧
        ∀ index' : Int, days < index' → index' ≤ (([0, 1, 1, 2, 3, 5] : List Int).length : Int) - 2 →
          ∃ x y, vecAt [0, 1, 1, 2, 3, 5] index' = .ok x ∧
            vecAt [0, 1, 1, 2, 3, 5] (index' + 1) = .ok y ∧
            ∀ i' j' : Int, 0 ≤ i' → 0 ≤ j' → i' * x + j' * y ≠ 7 :=
  ⟨by decide!,
    C2_general_search_maximal 7 (by decide) (by decide) 8 8 [0, 1, 1, 2, 3, 5] (by decide!)
      (by decide) (by decide)⟩

/-- C3 (amended) at `target_sum = 55`: the table is
`[0, 1, 1, 2, 3, 5, 8, 13, 21, 34, 55]` and the program reports `days = 11`,
deposits 1 and 0, without search fuel. -/
theorem C3_exact_fibonacci_special_case_witness :
    GetFibonacci 56 55 = .ok [0, 1, 1, 2, 3, 5, 8, 13, 21, 34, 55] ∧
      main 56 0 55 = .ok (.solution 11 1 0) ∧
      ∃ F, GetFibonacci 56 55 = .ok F ∧
        ((∃ k, (55 : Int) = fib k) ↔ vecBack F = .ok 55) ∧
        (vecBack F = .ok 55 → ∀ sf, main 56 sf 55 = .ok (.solution (F.length : Int) 1 0)) ∧
        (vecBack F ≠ .ok 55 → main 56 0 55 = .error .outOfFuel) :=
  ⟨by decide!, by decide!,
    C3_exact_fibonacci_special_case 55 (by decide) (by decide) 56 (by decide)⟩

/-- C4 (amended) at `target_sum = 7`, where the general search runs. -/
theorem C4_solution_always_reported_witness :
    (∃ days i j : Int, main 8 8 7 = .ok (.solution days i j)) ∧
      main 8 8 7 ≠ .ok .noSolution ∧
      ∃ F, GetFibonacci 8 7 = .ok F ∧
        (vecBack F ≠ .ok 7 →
          0 ≤ (F.length : Int) - 2 ∧ vecAt F 0 = .ok 0 ∧ vecAt F (0 + 1) = .ok 1 ∧
            innerLoop 7 0 1 8 0 = .ok (some (0, 7)) ∧
            outerLoop 8 7 F 1 = .ok (.solution 0 0 7)) :=
  C4_solution_always_reported 7 (by decide) (by decide) 8 8 (by decide) (by decide)

/-- C5 (amended) at `max = 55`. -/
theorem C5_table_contents_witness :
    GetFibonacci 56 55 = .ok [0, 1, 1, 2, 3, 5, 8, 13, 21, 34, 55] ∧
      ∃ n, GetFibonacci 56 55 = .ok ((List.range (n + 1)).map fib) ∧
        ((List.range (n + 1)).map fib).getLast? = some (fib n) ∧
        fib n ≤ 55 ∧ 55 < fib (n + 1) ∧ (∀ m, fib m ≤ 55 → m ≤ n) ∧
        fib (n + 1) ∉ (List.range (n + 1)).map fib :=
  ⟨by decide!, C5_table_contents 55 (by decide) (by decide) 56 (by decide)⟩

/-- C7 (amended) at `target_sum = 7`: the search reports `(3, 2, 1)`,
`2 * 2 + 1 * 3 = 7`, and the first deposits 0 and 1 admit no second deposit at
index 3 (entries 2 and 3). -/
theorem C7_minimal_first_deposit_witness :
    main 8 8 7 = .ok (.solution 3 2 1) ∧
      ∃ days i j : Int, main 8 8 7 = .ok (.solution days i j) ∧ 0 ≤ i ∧ 0 ≤ j ∧
        ∃ x y, vecAt [0, 1, 1, 2, 3, 5] days = .ok x ∧
          vecAt [0, 1, 1, 2, 3, 5] (days + 1) = .ok y ∧ i * x + j * y = 7 ∧
          ∀ i' j' : Int, 0 ≤ i' → i' < i → 0 ≤ j' → i' * x + j' * y ≠ 7 :=
  ⟨by decide!,
    C7_minimal_first_deposit 7 (by decide) (by decide) 8 8 [0, 1, 1, 2, 3, 5] (by decide!)
      (by decide) (by decide)⟩

/-- At `target_sum = 55` the special case reports `days = 11` and no deeper day
reaches 55. -/
theorem special_case_deepest_at_55 :
    main 56 56 55 = .ok (.solution 11 1 0) ∧
      1 * fib (11 - 1) + 0 * fib 11 = 55 ∧
      ∀ n, 11 < n → ∀ a b : Int, 0 ≤ a → 0 ≤ b → a * fib (n - 1) + b * fib n ≠ 55 :=
  special_case_deepest_below_fib92 55 (by decide) (by decide) 56 56 [0, 1, 1, 2, 3, 5, 8, 13, 21, 34, 55] (by decide!) (by decide)

/-- C9 (amended) at `target_sum = 7`. -/
theorem C9_termination_witness :
    (∀ tf sf, (7 : Int).toNat + 1 ≤ tf → (7 : Int).toNat + 1 ≤ sf →
      (∃ F, GetFibonacci tf 7 = .ok F) ∧ ∃ out, main tf sf 7 = .ok out) ∧
    (∀ tf, (7 : Int).toNat + 1 ≤ tf →
      ∃ ret back, fibWhile 7 tf [0, 1] = .ok ret ∧ vecBack ret = .ok back ∧ 7 < back) ∧
    (∀ tf F, GetFibonacci tf 7 = .ok F →
      ∀ index : Int, 1 ≤ index → index ≤ (F.length : Int) - 2 →
        ∃ fib1 fib2 r, vecAt F index = .ok fib1 ∧ vecAt F (index + 1) = .ok fib2 ∧
          1 ≤ fib1 ∧ innerLoop 7 fib1 fib2 ((7 / fib1).toNat + 1) 0 = .ok r) ∧
    innerLoop 7 0 1 1 0 = .ok (some (0, 7)) ∧
    innerLoop 7 0 1 0 0 = .error .outOfFuel :=
  C9_termination 7 (by decide) (by decide)

/-- C10 (amended) at `target_sum = 7`. -/
theorem C10_division_safety_witness :
    (∀ e, main 8 8 7 = .error e → e = .outOfFuel) ∧
    (∀ e, GetFibonacci 8 7 = .error e → e = .outOfFuel) ∧
    ∀ F, GetFibonacci 8 7 = .ok F →
      F ≠ [] ∧ (∃ back, vecBack F = .ok back) ∧
      ∀ index : Int, 0 ≤ index → index ≤ (F.length : Int) - 2 →
        ∃ fib1 fib2, vecAt F index = .ok fib1 ∧ vecAt F (index + 1) = .ok fib2 ∧ 1 ≤ fib2 :=
  C10_division_safety 7 (by decide) (by decide) 8 8

/-- C11 at `target_sum = 55`: the search alone reports `(9, 0, 1)`, the
program `(11, 1, 0)`. -/
theorem C11_special_case_needed_witness :
    generalSearch 1 55 [0, 1, 1, 2, 3, 5, 8, 13, 21, 34, 55] = .ok (.solution 9 0 1) ∧
      main 56 1 55 = .ok (.solution 11 1 0) ∧
      (generalSearch 1 55 [0, 1, 1, 2, 3, 5, 8, 13, 21, 34, 55] = .ok (.solution ((([0, 1, 1, 2, 3, 5, 8, 13, 21, 34, 55] : List Int).length : Int) - 2) 0 1) ∧
        generalSearch 1 55 [0, 1, 1, 2, 3, 5, 8, 13, 21, 34, 55] = .ok (.solution ((([0, 1, 1, 2, 3, 5, 8, 13, 21, 34, 55] : List Int).length : Int) - 2) 0 1) ∧
        vecAt [0, 1, 1, 2, 3, 5, 8, 13, 21, 34, 55] ((([0, 1, 1, 2, 3, 5, 8, 13, 21, 34, 55] : List Int).length : Int) - 2 + 1) = .ok 55 ∧
        main 56 1 55 = .ok (.solution (([0, 1, 1, 2, 3, 5, 8, 13, 21, 34, 55] : List Int).length : Int) 1 0) ∧
        (([0, 1, 1, 2, 3, 5, 8, 13, 21, 34, 55] : List Int).length : Int) - 2 < (([0, 1, 1, 2, 3, 5, 8, 13, 21, 34, 55] : List Int).length : Int)) :=
  ⟨by decide!, by decide!,
    C11_special_case_needed 55 (by decide) 56 1 [0, 1, 1, 2, 3, 5, 8, 13, 21, 34, 55] (by decide!) (by decide) (by decide)⟩

/-- C12 at `target_sum = 1000000`; the check is not idle: on `target_sum = 1`
the bound `2 * S = 2` is attained by the overshooting table entry, and on
`target_sum = 2^63 - 1`, outside the claimed range, the table construction
leaves the signed 64-bit range. -/
theorem C12_no_overflow_witness :
    mainChecked (-2 ^ 63) (2 ^ 63 - 1) 1000001 1000001 1000000 = .ok (.solution 18 154 144) ∧
      mainChecked 0 1 2 2 1 = .error (.outOfRange 2) ∧
      mainChecked (-2 ^ 63) (2 ^ 63 - 1) 100 100 (2 ^ 63 - 1) =
        .error (.outOfRange 12200160415121876738) ∧
      (mainChecked 0 (2 * 1000000) 1000001 1000001 1000000 =
          liftFault (main 1000001 1000001 1000000) ∧
        (-2 ^ 63 ≤ (0 : Int) ∧ 2 * (1000000 : Int) ≤ 2 ^ 63 - 1) ∧
        mainChecked (-2 ^ 63) (2 ^ 63 - 1) 1000001 1000001 1000000 =
          liftFault (main 1000001 1000001 1000000) ∧
        ((1000000 : Int).toNat + 1 ≤ 1000001 → (1000000 : Int).toNat + 1 ≤ 1000001 →
          ∃ days i j : Int,
            mainChecked (-2 ^ 63) (2 ^ 63 - 1) 1000001 1000001 1000000 =
              .ok (.solution days i j)) ∧
        main 1000001 1000001 1000000 = mainZ 1000001 1000001 1000000 ∧
        mainChecked 0 (2 * 1000000) 1000001 1000001 1000000 =
          liftFault (mainZ 1000001 1000001 1000000)) :=
  ⟨by decide!, by decide!, by decide!,
    C12_no_overflow 1000000 (by decide) (by decide) 1000001 1000001⟩

/-- C13 (amended) at `max = 55`. -/
theorem C13_table_nondecreasing_witness :
    GetFibonacci 56 55 = .ok [0, 1, 1, 2, 3, 5, 8, 13, 21, 34, 55] ∧
      ∃ F, GetFibonacci 56 55 = .ok F ∧ F ≠ [] ∧
        (∀ (k : Nat) (x y : Int), F[k]? = some x → F[k + 1]? = some y → x ≤ y) ∧
        F.Pairwise (· ≤ ·) ∧
        ∀ fuel' F', GetFibonacci fuel' 55 = .ok F' → F' = F :=
  ⟨by decide!, C13_table_nondecreasing 55 (by decide) (by decide) 56 (by decide)⟩

/-- C14 (amended) at `target_sum = 4`: the program reports `(3, 2, 0)` and
`2 * fib 3 + 0 * fib 4 = 4`. -/
theorem C14_general_search_relation_witness :
    main 5 5 4 = .ok (.solution 3 2 0) ∧ (2 : Int) * fib 3 + 0 * fib (3 + 1) = 4 ∧
      ∃ (days : Nat) (i j : Int) (F : List Int),
        main 5 5 4 = .ok (.solution (days : Int) i j) ∧ 0 ≤ i ∧ 0 ≤ j ∧
        i * fib days + j * fib (days + 1) = 4 ∧
        GetFibonacci 5 4 = .ok F ∧ vecAt F (days : Int) = .ok (fib days) ∧
        vecAt F ((days : Int) + 1) = .ok (fib (days + 1)) :=
  ⟨by decide!, by decide!,
    C14_general_search_relation 4 (by decide) (by decide)
      (not_fib_of_top_ne (by decide) (by decide!)) 5 5 (by decide) (by decide)⟩

/-- C15 (amended) at `target_sum = 7`: the program reports `(3, 2, 1)` and no
index above 3 admits deposits. -/
theorem C15_global_maximality_witness :
    main 8 8 7 = .ok (.solution 3 2 1) ∧
      ∃ (days : Nat) (i j : Int),
        main 8 8 7 = .ok (.solution (days : Int) i j) ∧
        (0 ≤ i ∧ 0 ≤ j ∧ i * fib days + j * fib (days + 1) = 7) ∧
        ∀ n : Nat, days < n → ∀ i' j' : Int, 0 ≤ i' → 0 ≤ j' →
          i' * fib n + j' * fib (n + 1) ≠ 7 :=
  ⟨by decide!,
    C15_global_maximality 7 (by decide) (by decide)
      (not_fib_of_top_ne (by decide) (by decide!)) 8 8 (by decide) (by decide)⟩

/-- C16 (amended) at `target_sum = 7`. -/
theorem C16_fallback_never_reported_witness :
    main 8 8 7 = .ok (.solution 3 2 1) ∧
      (((∀ k, (7 : Int) ≠ fib k) →
        4 ≤ (7 : Int) ∧ fib 3 = 2 ∧ fib 4 = 3 ∧
        (∃ i' j' : Int, 0 ≤ i' ∧ 0 ≤ j' ∧ 2 * i' + 3 * j' = 7) ∧
        ∃ days i j : Int, main 8 8 7 = .ok (.solution days i j) ∧ 3 ≤ days) ∧
      ((∃ k, (7 : Int) = fib k) →
        ∃ F, GetFibonacci 8 7 = .ok F ∧
          main 8 8 7 = .ok (.solution (F.length : Int) 1 0) ∧ 1 ≤ (F.length : Int)) ∧
      ∃ days i j : Int, main 8 8 7 = .ok (.solution days i j) ∧ days ≠ 0) :=
  ⟨by decide!,
    C16_fallback_never_reported 7 (by decide) (by decide) 8 8 (by decide) (by decide)⟩

/-- C17 at `target_sum = -5`. -/
theorem C17_negative_target_witness :
    main 3 3 (-5) = .ok .noSolution ∧ main 0 0 (-5) = .ok .noSolution ∧
      (((-5 : Int) < 0 →
        GetFibonacci 3 (-5) = .ok [0] ∧ vecBack [0] = .ok 0 ∧ (0 : Int) ≠ -5 ∧
        (([0] : List Int).length : Int) - 2 = -1 ∧
        generalSearch 3 (-5) [0] = outerLoop 3 (-5) [0] 0 ∧
        generalSearch 0 (-5) [0] = .ok .noSolution ∧
        main 3 3 (-5) = .ok .noSolution) ∧
      (main 3 3 (-5) = .ok .noSolution ↔ (-5 : Int) < 0)) :=
  ⟨by decide!, by decide!, C17_negative_target (-5) 3 3⟩

end BankBalance
